import Mathlib

/-!
# Verification of the trpycore ZooKeeper coordination client

Shallow embedding of the consistent-hashring watcher, the session manager,
the operation facade (`create_path`), the async result cell and the watcher
run loops of the `trpycore` repository
(`trpycore/zookeeper/client.py`, `trpycore/zookeeper/watch.py`,
`trpycore/zookeeper_gevent/watch.py`), together with theorems settling the
specification claims about them.

Python `long` integers are modelled as `Nat` (hashring tokens are unsigned
128-bit values rendered as hex node names), fallible operations return
`Except`/`Option`, and the mutable object state of the watchers is passed
explicitly.
-/

namespace Trpycore

/-! ## Hashring node

`HashringWatch.HashringNode` / `GHashringWatch.HashringNode`
(`zookeeper/watch.py` lines 409-437, `zookeeper_gevent/watch.py` lines
410-438): a token plus optional data and stat.  Python's `__cmp__` compares
nodes by `token` only; every comparison below is therefore on `token`.
The opaque zookeeper stat dict is modelled as a `Nat` identifier. -/

structure HashringNode where
  token : Nat
  data : Option String := none
  stat : Option Nat := none
deriving Repr, DecidableEq

instance : Inhabited HashringNode := ⟨{ token := 0 }⟩

/-- Tokens of a ring, in order. -/
def ringTokens (ring : List HashringNode) : List Nat :=
  ring.map (·.token)

/-- The ring invariant: strictly sorted by token (which implies that no
token appears twice). -/
def StrictSorted (ring : List HashringNode) : Prop :=
  ring.Pairwise (fun u v => u.token < v.token)

instance : DecidablePred StrictSorted := fun ring =>
  inferInstanceAs (Decidable (ring.Pairwise _))

/-! ## Python `bisect`

`bisect.bisect` (= `bisect_right`) and `bisect.bisect_left` from the Python
standard library, as used at `watch.py` lines 622 (`insort_left`), 746
(`bisect.bisect`) and `zookeeper_gevent/watch.py` lines 632 (`insort`), 757.
Both run the same binary-search loop
`while lo < hi: mid = (lo+hi)//2; ...`, differing only in which side an
equal element falls; `bsearchAux` abstracts the loop over the predicate
`p tok` meaning "the probe belongs strictly to the right of this element".
For `bisect_right x` the predicate is `tok ≤ x`; for `bisect_left x` it is
`tok < x`.  The loop halves `hi - lo` each iteration; the `fuel` argument
(instantiated with the initial interval length) bounds the number of
iterations, so the embedding is a faithful total rendering of the loop. -/

def bsearchAux (a : List HashringNode) (p : Nat → Bool) :
    Nat → Nat → Nat → Nat
  | 0, lo, _ => lo
  | fuel + 1, lo, hi =>
    if lo < hi then
      let mid := (lo + hi) / 2
      if p (a.getD mid default).token then
        bsearchAux a p fuel (mid + 1) hi
      else
        bsearchAux a p fuel lo mid
    else
      lo

/-- Python `bisect.bisect(a, x)` on a list of `HashringNode`s probed with a
bare token `x` (node comparison is by token). -/
def bisectRight (a : List HashringNode) (x : Nat) : Nat :=
  bsearchAux a (fun tok => tok ≤ x) a.length 0 a.length

/-- Python `bisect.bisect_left(a, x)` on a list of `HashringNode`s probed
with a bare token `x`. -/
def bisectLeft (a : List HashringNode) (x : Nat) : Nat :=
  bsearchAux a (fun tok => tok < x) a.length 0 a.length

/-! ## Sorted insertion

Python `bisect.insort_left(a, x)` inserts `x` at `bisect_left(a, x)` and
`bisect.insort(a, x)` inserts at `bisect_right(a, x)`; `list.insert(i, x)`
appends when `i` is past the end. -/

def insertAt (i : Nat) (x : HashringNode) (l : List HashringNode) : List HashringNode :=
  match i, l with
  | 0, l => x :: l
  | _ + 1, [] => [x]
  | i + 1, y :: ys => y :: insertAt i x ys

/-- Python `bisect.insort(a, n)` (`zookeeper_gevent/watch.py` line 632). -/
def insort (a : List HashringNode) (n : HashringNode) : List HashringNode :=
  insertAt (bisectRight a n.token) n a

/-- Python `bisect.insort_left(a, n)` (`zookeeper/watch.py` line 622). -/
def insortLeft (a : List HashringNode) (n : HashringNode) : List HashringNode :=
  insertAt (bisectLeft a n.token) n a

/-- Linear ordered insertion placing `n` after all nodes of token `≤ n.token`;
proved below to agree with `insort` on sorted rings. -/
def orderedInsertR (n : HashringNode) : List HashringNode → List HashringNode
  | [] => [n]
  | m :: rest =>
    if m.token ≤ n.token then m :: orderedInsertR n rest else n :: m :: rest

/-- Linear ordered insertion placing `n` before all nodes of token `≥ n.token`;
proved below to agree with `insortLeft` on sorted rings. -/
def orderedInsertL (n : HashringNode) : List HashringNode → List HashringNode
  | [] => [n]
  | m :: rest =>
    if m.token < n.token then m :: orderedInsertL n rest else n :: m :: rest

/-! ## Hex parsing

`long(child, 16)` applied to the hashring child node names
(`zookeeper/watch.py` lines 619, 628).  The model covers plain strings of
hex digits (Python raises `ValueError` on anything else, and additionally
accepts sign/whitespace/`0x` decorations that never occur here). -/

def hexVal (c : Char) : Nat :=
  if '0' ≤ c ∧ c ≤ '9' then c.toNat - '0'.toNat
  else if 'a' ≤ c ∧ c ≤ 'f' then c.toNat - 'a'.toNat + 10
  else if 'A' ≤ c ∧ c ≤ 'F' then c.toNat - 'A'.toNat + 10
  else 0

def parseHex (s : String) : Nat :=
  s.data.foldl (fun acc c => acc * 16 + hexVal c) 0

/-! ## Preference list

`HashringWatch.preference_list` (`zookeeper/watch.py` lines 722-754) and
`GHashringWatch.preference_list` (`zookeeper_gevent/watch.py` lines
736-765).  Both share the same computation once the effective ring is
chosen: hash the data, `bisect.bisect` the ring with the hash token, wrap
to zero at the end, and rotate.  `hashFn` models
`long(self._hash_function(data).hexdigest(), 16)`: the composite of the
configured hash function (default `hashlib.md5`, an external library
call) with hex decoding. -/

def preferenceListCore (hashFn : String → Nat) (hashring : List HashringNode)
    (data : String) : List HashringNode :=
  let dataToken := hashFn data
  let index := bisectRight hashring dataToken
  let index1 := if index = hashring.length then 0 else index
  hashring.drop index1 ++ hashring.take index1

/-- Thread-regime `HashringWatch.preference_list`: a `None` hashring
argument selects (a locked copy of) the watcher's current ring; an explicit
argument is used as given. -/
def HashringWatch.preference_list (hashFn : String → Nat)
    (selfHashring : List HashringNode) (data : String)
    (hashring : Option (List HashringNode)) : List HashringNode :=
  let ring :=
    match hashring with
    | none => selfHashring
    | some r => r
  preferenceListCore hashFn ring data

/-- Gevent-regime `GHashringWatch.preference_list`: the ring is chosen by
`hashring or self._hashring`, so a falsy argument — `None` or an explicit
empty list — selects the watcher's current ring. -/
def GHashringWatch.preference_list (hashFn : String → Nat)
    (selfHashring : List HashringNode) (data : String)
    (hashring : Option (List HashringNode)) : List HashringNode :=
  let ring :=
    match hashring with
    | none => selfHashring
    | some r => if r.isEmpty then selfHashring else r
  preferenceListCore hashFn ring data

/-- `HashringWatch.find_hashring_node` (`zookeeper/watch.py` lines 756-775):
first element of `self.preference_list(data)`, or `RuntimeError("no nodes
available")` when the preference list is empty. -/
def HashringWatch.find_hashring_node (hashFn : String → Nat)
    (selfHashring : List HashringNode) (data : String) :
    Except String HashringNode :=
  match HashringWatch.preference_list hashFn selfHashring data none with
  | [] => .error "no nodes available"
  | n :: _ => .ok n

/-- `GHashringWatch.find_hashring_node` (`zookeeper_gevent/watch.py` lines
767-786), same shape in the gevent regime. -/
def GHashringWatch.find_hashring_node (hashFn : String → Nat)
    (selfHashring : List HashringNode) (data : String) :
    Except String HashringNode :=
  match GHashringWatch.preference_list hashFn selfHashring data none with
  | [] => .error "no nodes available"
  | n :: _ => .ok n

/-! ## Hashring children diff

The children-diff applications of `HashringWatch._callback`
(`zookeeper/watch.py` lines 597-635) and `GHashringWatch._update`
(`zookeeper_gevent/watch.py` lines 617-642).  The children dict is
modelled as an association list; `fetch` models the blocking
`get_data` of a new child's `(data, stat)` pair. -/

/-- A child's `(data, stat)` snapshot; the opaque stat dict is a `Nat`. -/
abbrev ChildData := String × Nat

structure RingState where
  children : List (String × ChildData)
  hashring : List HashringNode
deriving Repr, DecidableEq

/-- `self._hashring.remove(self._hashring[self._hashring.index(HashringNode(t))])`:
node equality is by token, so this removes the first node carrying `t`. -/
def removeByToken (r : List HashringNode) (t : Nat) : List HashringNode :=
  r.eraseP (fun n => n.token == t)

/-- `HashringNode(long(child, 16), data, stat)`: the ring node built from a
child name and its fetched `(data, stat)` pair. -/
def nodeOfChild (cd : String × ChildData) : HashringNode :=
  { token := parseHex cd.1, data := some cd.2.1, stat := some cd.2.2 }

/-- One application of the children diff: fetch data for names not yet in
the children dict, insert the corresponding nodes into the sorted ring with
`insertFn`, then drop children (and their ring nodes) whose names are gone
from the server-returned list. -/
def ringDiffUpdate (insertFn : List HashringNode → HashringNode → List HashringNode)
    (st : RingState) (childNames : List String) (fetch : String → ChildData) :
    RingState :=
  let newChildren := (childNames.filter (fun c => (st.children.lookup c).isNone)).map
    (fun c => (c, fetch c))
  let children1 := st.children ++ newChildren
  let ring1 := newChildren.foldl (fun r cd => insertFn r (nodeOfChild cd)) st.hashring
  let stale := children1.filter (fun cd => !(childNames.contains cd.1))
  let children2 := children1.filter (fun cd => childNames.contains cd.1)
  let ring2 := stale.foldl (fun r cd => removeByToken r (parseHex cd.1)) ring1
  { children := children2, hashring := ring2 }

/-- Thread-regime ring diff (`HashringWatch._callback` uses
`bisect.insort_left`). -/
def HashringWatch.ringUpdate (st : RingState) (childNames : List String)
    (fetch : String → ChildData) : RingState :=
  ringDiffUpdate insortLeft st childNames fetch

/-- Gevent-regime ring diff (`GHashringWatch._update` uses `bisect.insort`). -/
def GHashringWatch.ringUpdate (st : RingState) (childNames : List String)
    (fetch : String → ChildData) : RingState :=
  ringDiffUpdate insort st childNames fetch

/-! ## Children/hashring get_children completion handling

`ChildrenWatch._callback` (`zookeeper/watch.py` lines 263-325) versus
`HashringWatch._callback` (`zookeeper/watch.py` lines 583-595).  The model
records the zookeeper calls each handler issues; `existsNow` is the stat
returned by the blocking `exists` race-guard double check. -/

inductive ReturnCode where
  | ok
  | noNode
  | closing
  | nodeExists
  | connectionLoss
  | other
deriving Repr, DecidableEq

inductive WatchCall where
  | existsWatch (path : String)
  | asyncGetChildren (path : String)
deriving Repr, DecidableEq

/-- The children map diff of `ChildrenWatch._callback` (lines 285-296):
fetch and insert new children, delete stale ones. -/
def childrenMapDiff (m : List (String × ChildData)) (childNames : List String)
    (fetch : String → ChildData) : List (String × ChildData) :=
  let newChildren := (childNames.filter (fun c => (m.lookup c).isNone)).map
    (fun c => (c, fetch c))
  let m1 := m ++ newChildren
  m1.filter (fun cd => childNames.contains cd.1)

/-- `ChildrenWatch._callback`: on `OK`, apply the diff.  On `NoNode`
(raised via `error_to_exception`), install an exists watch; if the node
appeared in the race window, re-issue `async_get_children`, otherwise clear
the cache.  `Closing` is swallowed; other failures are logged and leave the
cache unchanged. -/
def ChildrenWatch.callbackModel (path : String) (children : List (String × ChildData))
    (rc : ReturnCode) (childNames : List String) (fetch : String → ChildData)
    (existsNow : Option Nat) : List (String × ChildData) × List WatchCall :=
  match rc with
  | .ok => (childrenMapDiff children childNames fetch, [])
  | .noNode =>
    match existsNow with
    | some _ => (children, [.existsWatch path, .asyncGetChildren path])
    | none => ([], [.existsWatch path])
  | _ => (children, [])

/-- `HashringWatch._callback` (lines 594-595): any non-`OK` return code
makes the handler return immediately — no exists watch, no cache update. -/
def HashringWatch.callbackModel (_path : String) (st : RingState)
    (rc : ReturnCode) (childNames : List String) (fetch : String → ChildData) :
    RingState × List WatchCall :=
  match rc with
  | .ok => (HashringWatch.ringUpdate st childNames fetch, [])
  | _ => (st, [])

/-! ## Operation facade: `create` and `create_path`

`ZookeeperClient.create` (`zookeeper/client.py` lines 328-351) and
`ZookeeperClient.create_path` (lines 353-384).  The external zookeeper
store is an association list from absolute path to node; the root `"/"`
always exists.  The sequence-number suffixing the real server applies to
sequential nodes is not modelled: the flag is recorded on the node and the
unmodified path is returned. -/

instance {ε α : Type} [DecidableEq ε] [DecidableEq α] : DecidableEq (Except ε α) :=
  fun a b =>
    match a, b with
    | .ok x, .ok y =>
      if h : x = y then .isTrue (by rw [h]) else .isFalse (by simp [h])
    | .error x, .error y =>
      if h : x = y then .isTrue (by rw [h]) else .isFalse (by simp [h])
    | .ok _, .error _ => .isFalse (by simp)
    | .error _, .ok _ => .isFalse (by simp)

structure AclEntry where
  perms : Nat
  scheme : String
  id : String
deriving Repr, DecidableEq

/-- The client's default ACL (`client.py` line 136). -/
def openAcl : List AclEntry := [{ perms := 0x1f, scheme := "world", id := "anyone" }]

structure ZNode where
  data : String
  acl : List AclEntry
  sequence : Bool
  ephemeral : Bool
deriving Repr, DecidableEq

abbrev ZStore := List (String × ZNode)

inductive ZError where
  | nodeExists
  | noNode
  | closing
  | other
deriving Repr, DecidableEq

/-- Parent of an absolute path: drop the final `/`-separated segment
(`"/a/b" ↦ "/a"`, `"/a" ↦ ""`; both `""` and `"/"` denote the
always-present root below). -/
def parentPath (p : String) : String :=
  String.mk (((p.data.reverse.dropWhile (fun c => c ≠ '/')).drop 1).reverse)

def pathExists (st : ZStore) (p : String) : Bool :=
  p == "/" || p == "" || (st.lookup p).isSome

/-- External `zookeeper.create`: fails with `NodeExists` if the path is
present, `NoNode` if its parent is absent, else records the node. -/
def zcreate (st : ZStore) (path : String) (data : String) (acl : List AclEntry)
    (sequence ephemeral : Bool) : Except ZError (String × ZStore) :=
  if (st.lookup path).isSome then .error .nodeExists
  else if !(pathExists st (parentPath path)) then .error .noNode
  else .ok (path,
    (path, { data := data, acl := acl, sequence := sequence, ephemeral := ephemeral }) :: st)

/-- `ZookeeperClient.create`: `data or ""`, `acl or self.acl`, then the
external create. -/
def ZookeeperClient.create (st : ZStore) (path : String) (data : Option String)
    (acl : Option (List AclEntry)) (sequence ephemeral : Bool) :
    Except ZError (String × ZStore) :=
  zcreate st path (data.getD "") (acl.getD openAcl) sequence ephemeral

/-- The `create_path` loop over `path.split("/")[1:]`: each iteration
extends the current path by one segment (the incremental equivalent of
re-joining `current_path_list`).  Ancestors are created with `data=None`
and the supplied ACL and `NodeExists` on them is swallowed; the leaf is
created with the real data and flags and its `NodeExists` is re-raised. -/
def createPathGo (path : String) (data : Option String) (acl : Option (List AclEntry))
    (sequence ephemeral : Bool) :
    List String → String → ZStore → Option String → Except ZError (Option String × ZStore)
  | [], _, st, result => .ok (result, st)
  | seg :: rest, cur, st, result =>
    let cur1 := cur ++ "/" ++ seg
    if cur1 = path then
      match ZookeeperClient.create st cur1 data acl sequence ephemeral with
      | .ok (p, st1) => createPathGo path data acl sequence ephemeral rest cur1 st1 (some p)
      | .error .nodeExists => .error .nodeExists
      | .error e => .error e
    else
      match ZookeeperClient.create st cur1 none acl false false with
      | .ok (_, st1) => createPathGo path data acl sequence ephemeral rest cur1 st1 result
      | .error .nodeExists => createPathGo path data acl sequence ephemeral rest cur1 st result
      | .error e => .error e

/-- Python `path.split("/")` for the single-character separator. -/
def splitSlash (p : String) : List String :=
  (p.data.splitOn '/').map (fun cs => ⟨cs⟩)

/-- `ZookeeperClient.create_path` (`client.py` lines 353-384). -/
def ZookeeperClient.create_path (st : ZStore) (path : String) (data : Option String)
    (acl : Option (List AclEntry)) (sequence ephemeral : Bool) :
    Except ZError (Option String × ZStore) :=
  createPathGo path data acl sequence ephemeral ((splitSlash path).drop 1) "" st none

/-- `"/".join`: the absolute path assembled from `cur` by appending the
given segments. -/
def extendPath (cur : String) (segs : List String) : String :=
  segs.foldl (fun acc s => acc ++ "/" ++ s) cur

/-- The successive absolute paths the `create_path` loop visits. -/
def walkPaths (cur : String) : List String → List String
  | [] => []
  | s :: rest => (cur ++ "/" ++ s) :: walkPaths (cur ++ "/" ++ s) rest

/-! ## Session manager event processing

The event dispatch of `ZookeeperClient.run` (`zookeeper/client.py` lines
243-265).  `sessionOracle` models `zookeeper.client_id(handle)` — the
`(session_id, password)` pair the server reports on `Connected` — and
`newHandle` the handle returned by `zookeeper.init`.  `establishSession`
models `_establish_session` (lines 161-169): it passes the *current*
cached credentials to `zookeeper.init` and stores the new handle; the
returned pair records the credentials given to `init`. -/

inductive SessionEventState where
  | connected
  | connecting
  | expired
  | associating
  | authFailed
deriving Repr, DecidableEq

structure ClientState where
  connected : Bool
  sessionId : Int
  sessionPassword : String
  handle : Option Nat
deriving Repr, DecidableEq

def establishSession (st : ClientState) (newHandle : Nat) :
    ClientState × (Int × String) :=
  ({ st with handle := some newHandle }, (st.sessionId, st.sessionPassword))

/-- One event of the `run` loop: on `Connected` cache the server-reported
session credentials; on `Connecting` only drop the connected flag; on
`Expired` clear the connected flag, null the handle, reset the credentials
to `(-1, "")` and re-establish; other states leave the client state alone.
The second component lists the `init` calls made, each with the credentials
passed. -/
def ZookeeperClient.processEvent (st : ClientState) (ev : SessionEventState)
    (sessionOracle : Int × String) (newHandle : Nat) :
    ClientState × List (Int × String) :=
  match ev with
  | .connected =>
    let st1 : ClientState :=
      { st with
        connected := true
        sessionId := sessionOracle.1
        sessionPassword := sessionOracle.2 }
    (st1, [])
  | .connecting => ({ st with connected := false }, [])
  | .expired =>
    let st1 : ClientState :=
      { connected := false, sessionId := -1, sessionPassword := "", handle := none }
    let (st2, call) := establishSession st1 newHandle
    (st2, [call])
  | _ => (st, [])

/-! ## Gevent watcher run loops

`GDataWatch._run` (`zookeeper_gevent/watch.py` lines 125-166),
`GChildrenWatch._run` (lines 324-365) and `GHashringWatch._run` (lines
652-693).  Each iteration takes one queue event; `_update` may succeed,
raise one of the swallowed transients (`ConnectionLoss`, `SessionExpired`,
`Closing` — all hit a bare `continue`), or raise a counted error.  The data
and children loops reset `errors = 0` after a successful update of a
`Connected` event; the hashring loop has no such reset.  All three break
once `errors > 10` (the `self.log` attribute error on that line also
terminates the loop). -/

inductive WEvent where
  | stop
  | start
  | connecting
  | expired
  | connected
deriving Repr, DecidableEq

inductive UpdateOutcome where
  | ok
  | transient
  | err
deriving Repr, DecidableEq

structure WIter where
  event : WEvent
  clientConnected : Bool
  outcome : UpdateOutcome
deriving Repr, DecidableEq

inductive StepRes where
  | next (errors : Nat)
  | stopped (errors : Nat)
  | maxErrors (errors : Nat)
deriving Repr, DecidableEq

/-- One iteration of a watcher `_run` loop with error counter `errors`.
`resetOnSuccess` distinguishes the data/children loops (which zero the
counter after a successful `Connected` update) from the hashring loop
(which never resets it). -/
def watchStep (resetOnSuccess : Bool) (errors : Nat) (it : WIter) : StepRes :=
  match it.event with
  | .stop => .stopped errors
  | .connecting => .next errors
  | .expired => .next errors
  | .start =>
    if it.clientConnected then
      match it.outcome with
      | .ok => .next errors
      | .transient => .next errors
      | .err => if errors + 1 > 10 then .maxErrors (errors + 1) else .next (errors + 1)
    else .next errors
  | .connected =>
    match it.outcome with
    | .ok => .next (if resetOnSuccess then 0 else errors)
    | .transient => .next errors
    | .err => if errors + 1 > 10 then .maxErrors (errors + 1) else .next (errors + 1)

inductive LoopExit where
  | drained
  | stoppedExit
  | maxErrorsExit
deriving Repr, DecidableEq

/-- The `_run` loop over a finite schedule of iterations, returning how the
loop ended and the final error counter. -/
def watchLoop (resetOnSuccess : Bool) : Nat → List WIter → LoopExit × Nat
  | errors, [] => (.drained, errors)
  | errors, it :: rest =>
    match watchStep resetOnSuccess errors it with
    | .next e => watchLoop resetOnSuccess e rest
    | .stopped e => (.stoppedExit, e)
    | .maxErrors e => (.maxErrorsExit, e)

def GDataWatch.runStep : Nat → WIter → StepRes := watchStep true

def GChildrenWatch.runStep : Nat → WIter → StepRes := watchStep true

def GHashringWatch.runStep : Nat → WIter → StepRes := watchStep false

def GDataWatch.runLoop : Nat → List WIter → LoopExit × Nat := watchLoop true

def GChildrenWatch.runLoop : Nat → List WIter → LoopExit × Nat := watchLoop true

def GHashringWatch.runLoop : Nat → List WIter → LoopExit × Nat := watchLoop false

/-! ## Hashring position occupancy

`HashringWatch._add_hashring_positions` (`zookeeper/watch.py` lines
527-571) = `GHashringWatch._add_hashring_positions`
(`zookeeper_gevent/watch.py` lines 533-582); both bodies are identical.
The model covers the position loop (after the `_occupied_positions == 0`
guard and the tolerated `create_path` of the ring parent).  `randoms`
supplies the successive `uuid.uuid4().int` draws and `none` means the
modelled supply ran out (the real loop would draw forever).  Node data is
either the configured `position_data` string or — `position_data or
position` with a falsy value — the position integer itself; the two kinds
never compare equal, as in Python. -/

inductive PosData where
  | str (s : String)
  | tok (n : Nat)
deriving Repr, DecidableEq

/-- Children of the ring path: hex name to stored data. -/
abbrev RingChildren := List (String × PosData)

def hexDigits : List Char := "0123456789abcdef".data

def hexChar (n : Nat) : Char := hexDigits.getD n '0'

/-- A lower-case hex digit character. -/
def isLowerHexDigit (c : Char) : Bool := hexDigits.contains c

/-- Hex rendering of a natural number, most significant digit first.  The
fuel (`n + 1` at the entry point) dominates the digit count, so the loop
is total and faithful. -/
def toHexGo : Nat → Nat → List Char → List Char
  | 0, _, acc => acc
  | fuel + 1, n, acc =>
    if n < 16 then hexChar n :: acc
    else toHexGo fuel (n / 16) (hexChar (n % 16) :: acc)

/-- `"%x" % n`: lower-case hex, no padding. -/
def toHexRaw (n : Nat) : String := ⟨toHexGo (n + 1) n []⟩

/-- `"%032x" % n`: lower-case hex, zero-padded to at least 32 characters. -/
def hex32 (n : Nat) : String :=
  let s := toHexRaw n
  if s.length < 32 then ⟨List.replicate (32 - s.length) '0'⟩ ++ s else s

/-- `data = self._position_data or position`. -/
def occupyData (positionData : Option String) (position : Nat) : PosData :=
  match positionData with
  | some s => .str s
  | none => .tok position

inductive AttemptResult where
  | created (store : RingChildren)
  | alreadyOurs
  | collision
deriving Repr, DecidableEq

/-- One `create` attempt of a position node: fresh name ⇒ created;
`NodeExists` with our own data ⇒ accepted (brief-reconnect case);
`NodeExists` with foreign data ⇒ collision. -/
def attemptPosition (store : RingChildren) (positionData : Option String)
    (position : Nat) : AttemptResult :=
  let data := occupyData positionData position
  let name := hex32 position
  match store.lookup name with
  | none => .created ((name, data) :: store)
  | some existing => if existing = data then .alreadyOurs else .collision

/-- The collision retry loop once the requested-position queue is empty:
draw random tokens until one is accepted. -/
def occupySlotRandoms (positionData : Option String) (store : RingChildren) :
    List Nat → Option (Nat × RingChildren × List Nat)
  | [] => none
  | p :: randoms =>
    match attemptPosition store positionData p with
    | .created store1 => some (p, store1, randoms)
    | .alreadyOurs => some (p, store, randoms)
    | .collision => occupySlotRandoms positionData store randoms

/-- The inner `while True` of `_add_hashring_positions`: candidates come
from the remaining requested-position queue first and only then from
random draws; a collision moves on to the next candidate. -/
def occupySlot (positionData : Option String) (store : RingChildren) :
    List Nat → List Nat → Option (Nat × RingChildren × List Nat × List Nat)
  | p :: queue, randoms =>
    match attemptPosition store positionData p with
    | .created store1 => some (p, store1, queue, randoms)
    | .alreadyOurs => some (p, store, queue, randoms)
    | .collision => occupySlot positionData store queue randoms
  | [], randoms =>
    match occupySlotRandoms positionData store randoms with
    | some (p, store1, randoms1) => some (p, store1, [], randoms1)
    | none => none

/-- The outer `for i in range(0, self._num_positions)` loop, returning the
owned-position list (in acceptance order) and the resulting ring children. -/
def addPositionsGo (positionData : Option String) :
    Nat → RingChildren → List Nat → List Nat → Option (List Nat × RingChildren)
  | 0, store, _, _ => some ([], store)
  | slots + 1, store, queue, randoms =>
    match occupySlot positionData store queue randoms with
    | none => none
    | some (p, store1, queue1, randoms1) =>
      match addPositionsGo positionData slots store1 queue1 randoms1 with
      | none => none
      | some (owned, store2) => some (p :: owned, store2)

/-- `HashringWatch._add_hashring_positions`: occupy `numPositions` slots,
trying the requested positions first and random tokens after. -/
def HashringWatch.addPositions (positionData : Option String) (numPositions : Nat)
    (positions : List Nat) (randoms : List Nat) (store : RingChildren) :
    Option (List Nat × RingChildren) :=
  addPositionsGo positionData numPositions store positions randoms

/-- Modelled from the spec: per-slot occupancy in which a data-mismatch
collision retries with "a fresh random 128-bit token" — never with a later
requested position.  This is the spec's §4.7 step 2 wording, embedded for
comparison with the source's `occupySlot`. -/
def specOccupySlot (positionData : Option String) (store : RingChildren)
    (desired : Option Nat) (randoms : List Nat) :
    Option (Nat × RingChildren × List Nat) :=
  match desired with
  | some p =>
    match attemptPosition store positionData p with
    | .created store1 => some (p, store1, randoms)
    | .alreadyOurs => some (p, store, randoms)
    | .collision => occupySlotRandoms positionData store randoms
  | none => occupySlotRandoms positionData store randoms

/-- Modelled from the spec: the slot loop over the desired positions
(an unspecified entry means "pick a random token"). -/
def specAddPositionsGo (positionData : Option String) :
    List (Option Nat) → RingChildren → List Nat → Option (List Nat × RingChildren)
  | [], store, _ => some ([], store)
  | d :: ds, store, randoms =>
    match specOccupySlot positionData store d randoms with
    | none => none
    | some (p, store1, randoms1) =>
      match specAddPositionsGo positionData ds store1 randoms1 with
      | none => none
      | some (owned, store2) => some (p :: owned, store2)

/-! ## Async result

`ZookeeperClient.AsyncResult` (`zookeeper/client.py` lines 84-119).  The
threading event/result/exception fields are explicit; `get` models the
observation made at the moment the (possibly timed-out) wait returns:
if the event is not yet set the `TimeoutException` is raised. -/

structure AsyncResult (α : Type) where
  result : Option α := none
  exception : Option String := none
  eventSet : Bool := false
deriving Repr, DecidableEq

def AsyncResult.ready (r : AsyncResult α) : Bool := r.eventSet

/-- `set(value=None)`: store the value and set the event — unconditionally,
whether or not the cell was already completed. -/
def AsyncResult.set (r : AsyncResult α) (value : Option α) : AsyncResult α :=
  { r with result := value, eventSet := true }

/-- `set_exception(exception)`: store the error and set the event —
unconditionally. -/
def AsyncResult.setException (r : AsyncResult α) (e : String) : AsyncResult α :=
  { r with exception := some e, eventSet := true }

inductive GetOutcome (α : Type) where
  | timeout
  | raised (e : String)
  | value (v : Option α)
deriving Repr, DecidableEq

/-- `get`: `TimeoutException` if the event is unset once the wait is over,
otherwise raise the stored exception if there is one, else return the
stored result. -/
def AsyncResult.get (r : AsyncResult α) : GetOutcome α :=
  if !r.ready then .timeout
  else
    match r.exception with
    | some e => .raised e
    | none => .value r.result

/-! Basic bounds: the binary search always lands in `[lo, hi]`. -/

theorem bsearchAux_bounds (a : List HashringNode) (p : Nat → Bool) :
    ∀ fuel lo hi, hi - lo ≤ fuel → lo ≤ hi →
      lo ≤ bsearchAux a p fuel lo hi ∧ bsearchAux a p fuel lo hi ≤ hi := by
  intro fuel
  induction fuel with
  | zero =>
    intro lo hi hfuel hle
    simp only [bsearchAux]
    omega
  | succ n ih =>
    intro lo hi hfuel hle
    simp only [bsearchAux]
    by_cases h : lo < hi
    · rw [if_pos h]
      by_cases hp : p (a.getD ((lo + hi) / 2) default).token
      · rw [if_pos hp]
        have := ih ((lo + hi) / 2 + 1) hi (by omega) (by omega)
        omega
      · rw [if_neg hp]
        have := ih lo ((lo + hi) / 2) (by omega) (by omega)
        omega
    · rw [if_neg h]
      omega

theorem bisectRight_le_length (a : List HashringNode) (x : Nat) :
    bisectRight a x ≤ a.length :=
  (bsearchAux_bounds a _ a.length 0 a.length (by omega) (by omega)).2

theorem bisectLeft_le_length (a : List HashringNode) (x : Nat) :
    bisectLeft a x ≤ a.length :=
  (bsearchAux_bounds a _ a.length 0 a.length (by omega) (by omega)).2

/-- Sorted lists (weakly, by token) indexed through `getD`. -/
theorem sorted_getD_le (a : List HashringNode)
    (hsort : a.Pairwise (fun u v => u.token ≤ v.token))
    {i j : Nat} (hij : i ≤ j) (hj : j < a.length) :
    (a.getD i default).token ≤ (a.getD j default).token := by
  have hi : i < a.length := lt_of_le_of_lt hij hj
  rw [List.getD_eq_getElem a default hi, List.getD_eq_getElem a default hj]
  rcases Nat.eq_or_lt_of_le hij with rfl | hlt
  · exact le_refl _
  · exact (List.pairwise_iff_getElem.mp hsort) i j hi hj hlt

/-- Correctness of the binary-search loop on a sorted list with a predicate
that is downward closed along the token order: the result `r` splits the
list into a prefix where `p` holds and a suffix where it fails. -/
theorem bsearchAux_split (a : List HashringNode) (p : Nat → Bool)
    (hsort : a.Pairwise (fun u v => u.token ≤ v.token))
    (hmono : ∀ t t', t ≤ t' → p t' = true → p t = true) :
    ∀ fuel lo hi, hi - lo ≤ fuel → lo ≤ hi → hi ≤ a.length →
      (∀ i, i < lo → p (a.getD i default).token = true) →
      (∀ i, hi ≤ i → i < a.length → p (a.getD i default).token = false) →
      (∀ i, i < bsearchAux a p fuel lo hi → p (a.getD i default).token = true) ∧
      (∀ i, bsearchAux a p fuel lo hi ≤ i → i < a.length →
        p (a.getD i default).token = false) := by
  intro fuel
  induction fuel with
  | zero =>
    intro lo hi hfuel hle hhi hplo hphi
    simp only [bsearchAux]
    have : lo = hi := by omega
    subst this
    exact ⟨hplo, hphi⟩
  | succ n ih =>
    intro lo hi hfuel hle hhi hplo hphi
    simp only [bsearchAux]
    by_cases h : lo < hi
    · rw [if_pos h]
      have hmidlt : (lo + hi) / 2 < hi := by omega
      have hmidge : lo ≤ (lo + hi) / 2 := by omega
      have hmidlen : (lo + hi) / 2 < a.length := by omega
      by_cases hp : p (a.getD ((lo + hi) / 2) default).token
      · rw [if_pos hp]
        refine ih ((lo + hi) / 2 + 1) hi (by omega) (by omega) hhi ?_ hphi
        intro i hilt
        by_cases hcase : i < lo
        · exact hplo i hcase
        · have hile : i ≤ (lo + hi) / 2 := by omega
          exact hmono _ _ (sorted_getD_le a hsort hile hmidlen) hp
      · rw [if_neg hp]
        refine ih lo ((lo + hi) / 2) (by omega) (by omega) (by omega) hplo ?_
        intro i hige hilen
        rcases Nat.eq_or_lt_of_le hige with rfl | hgt
        · exact Bool.eq_false_iff.mpr hp
        · refine Bool.eq_false_iff.mpr (fun hcon => ?_)
          exact hp (hmono _ _ (sorted_getD_le a hsort (by omega) hilen) hcon)
    · rw [if_neg h]
      have : lo = hi := by omega
      subst this
      exact ⟨hplo, hphi⟩

/-- `bisectRight` on a weakly sorted ring: every element strictly before the
returned index has token `≤ x` and every element from the index on has token
`> x`. -/
theorem bisectRight_split (a : List HashringNode) (x : Nat)
    (hsort : a.Pairwise (fun u v => u.token ≤ v.token)) :
    (∀ i, i < bisectRight a x → (a.getD i default).token ≤ x) ∧
      (∀ i, bisectRight a x ≤ i → i < a.length →
        x < (a.getD i default).token) := by
  have h := bsearchAux_split a (fun tok => tok ≤ x) hsort
    (fun t t' htt' hp => by
      simp only [decide_eq_true_eq] at hp ⊢
      omega)
    a.length 0 a.length (by omega) (by omega) (le_refl _)
    (by omega) (fun i hi hlen => by omega)
  refine ⟨fun i hi => ?_, fun i hge hlen => ?_⟩
  · have := h.1 i hi
    simpa using this
  · have := h.2 i hge hlen
    simp only [decide_eq_false_iff_not] at this
    omega

/-- `bisectLeft` on a weakly sorted ring: elements strictly before the index
have token `< x`, elements from the index on have token `≥ x`. -/
theorem bisectLeft_split (a : List HashringNode) (x : Nat)
    (hsort : a.Pairwise (fun u v => u.token ≤ v.token)) :
    (∀ i, i < bisectLeft a x → (a.getD i default).token < x) ∧
      (∀ i, bisectLeft a x ≤ i → i < a.length →
        x ≤ (a.getD i default).token) := by
  have h := bsearchAux_split a (fun tok => tok < x) hsort
    (fun t t' htt' hp => by
      simp only [decide_eq_true_eq] at hp ⊢
      omega)
    a.length 0 a.length (by omega) (by omega) (le_refl _)
    (by omega) (fun i hi hlen => by omega)
  refine ⟨fun i hi => ?_, fun i hge hlen => ?_⟩
  · have := h.1 i hi
    simpa using this
  · have := h.2 i hge hlen
    simp only [decide_eq_false_iff_not] at this
    omega

/-! ## Preference list lemmas -/

/-- A strictly sorted ring is weakly sorted. -/
theorem StrictSorted.weak {ring : List HashringNode} (h : StrictSorted ring) :
    ring.Pairwise (fun u v => u.token ≤ v.token) :=
  h.imp (fun hlt => le_of_lt hlt)

theorem preferenceListCore_length (hashFn : String → Nat)
    (ring : List HashringNode) (data : String) :
    (preferenceListCore hashFn ring data).length = ring.length := by
  have hle := bisectRight_le_length ring (hashFn data)
  simp only [preferenceListCore]
  by_cases h : bisectRight ring (hashFn data) = ring.length
  · rw [if_pos h]
    simp
  · rw [if_neg h]
    simp only [List.length_append, List.length_drop, List.length_take]
    omega

theorem preferenceListCore_nil (hashFn : String → Nat) (data : String) :
    preferenceListCore hashFn [] data = [] := by
  simp [preferenceListCore, bisectRight, bsearchAux]

/-- Head of the rotation at an in-range index. -/
theorem rotation_getD_zero (l : List HashringNode) (i : Nat) (h : i < l.length) :
    (l.drop i ++ l.take i).getD 0 default = l.getD i default := by
  have h0 : 0 < (l.drop i).length := by
    rw [List.length_drop]
    omega
  rw [List.getD_eq_getElem _ default (by
    simp only [List.length_append, List.length_drop, List.length_take]
    omega), List.getD_eq_getElem _ default h]
  rw [List.getElem_append_left h0]
  simp [List.getElem_drop]

/-- C1: `preference_list` hashes the key with the configured hash function,
finds by binary search the smallest ring index whose token strictly exceeds
the hash (ties with a node token fall strictly after that node), wraps the
index to zero when the hash is at or past the last token (in which case the
ring is returned unrotated), and returns the ring rotated to start at that
index; the result always has the ring's length, is a rotation of the ring,
and is empty exactly for the empty ring. -/
theorem claim_C1_preference_list (hashFn : String → Nat) (ring : List HashringNode)
    (data : String) (hsort : StrictSorted ring) :
    (ring = [] → preferenceListCore hashFn ring data = []) ∧
    (preferenceListCore hashFn ring data).length = ring.length ∧
    (ring ≠ [] → ∃ k, k < ring.length ∧
      preferenceListCore hashFn ring data = ring.drop k ++ ring.take k) ∧
    (∀ j, j < bisectRight ring (hashFn data) →
      (ring.getD j default).token ≤ hashFn data) ∧
    (∀ j, bisectRight ring (hashFn data) ≤ j → j < ring.length →
      hashFn data < (ring.getD j default).token) ∧
    (bisectRight ring (hashFn data) < ring.length →
      (preferenceListCore hashFn ring data).getD 0 default
        = ring.getD (bisectRight ring (hashFn data)) default) ∧
    (bisectRight ring (hashFn data) = ring.length →
      preferenceListCore hashFn ring data = ring) := by
  have hsplit := bisectRight_split ring (hashFn data) hsort.weak
  have hle := bisectRight_le_length ring (hashFn data)
  refine ⟨?_, preferenceListCore_length hashFn ring data, ?_, hsplit.1, hsplit.2, ?_, ?_⟩
  · intro h
    subst h
    exact preferenceListCore_nil hashFn data
  · intro hne
    refine ⟨if bisectRight ring (hashFn data) = ring.length then 0
      else bisectRight ring (hashFn data), ?_, ?_⟩
    · have : 0 < ring.length := List.length_pos.mpr hne
      by_cases h : bisectRight ring (hashFn data) = ring.length
      · rw [if_pos h]
        omega
      · rw [if_neg h]
        omega
    · simp only [preferenceListCore]
  · intro h
    simp only [preferenceListCore]
    rw [if_neg (by omega)]
    exact rotation_getD_zero ring _ h
  · intro h
    simp only [preferenceListCore]
    rw [if_pos h]
    simp

/-- Witness for C1 on a concrete three-node ring: the preference list keeps
the ring's length. -/
theorem claim_C1_preference_list_witness :
    (preferenceListCore (fun _ => 3)
      [{ token := 1 }, { token := 3 }, { token := 5 }] "k").length = 3 :=
  (claim_C1_preference_list (fun _ => 3)
    [{ token := 1 }, { token := 3 }, { token := 5 }] "k" (by decide)).2.1

/-- C3: `find_hashring_node` passes the key through to `preference_list`
as its `data` argument and returns the head of the resulting preference
list; for an empty ring the preference list is empty and a
"no nodes available" error is raised instead.  Both the thread and gevent
implementations behave this way. -/
theorem claim_C3_find_hashring_node (hashFn : String → Nat)
    (ring : List HashringNode) (data : String) :
    (ring = [] →
      HashringWatch.find_hashring_node hashFn ring data = .error "no nodes available" ∧
      GHashringWatch.find_hashring_node hashFn ring data = .error "no nodes available") ∧
    (ring ≠ [] → ∃ n rest,
      HashringWatch.preference_list hashFn ring data none = n :: rest ∧
      HashringWatch.find_hashring_node hashFn ring data = .ok n ∧
      GHashringWatch.preference_list hashFn ring data none = n :: rest ∧
      GHashringWatch.find_hashring_node hashFn ring data = .ok n) := by
  constructor
  · intro h
    subst h
    constructor
    · simp [HashringWatch.find_hashring_node, HashringWatch.preference_list,
        preferenceListCore_nil]
    · simp [GHashringWatch.find_hashring_node, GHashringWatch.preference_list,
        preferenceListCore_nil]
  · intro hne
    have hlen : (preferenceListCore hashFn ring data).length = ring.length :=
      preferenceListCore_length hashFn ring data
    have hpos : 0 < (preferenceListCore hashFn ring data).length := by
      rw [hlen]
      exact List.length_pos.mpr hne
    obtain ⟨n, rest, hcons⟩ : ∃ n rest, preferenceListCore hashFn ring data = n :: rest := by
      cases hpl : preferenceListCore hashFn ring data with
      | nil => rw [hpl] at hpos; simp at hpos
      | cons n rest => exact ⟨n, rest, rfl⟩
    refine ⟨n, rest, ?_, ?_, ?_, ?_⟩
    · simpa [HashringWatch.preference_list] using hcons
    · simp [HashringWatch.find_hashring_node, HashringWatch.preference_list, hcons]
    · simpa [GHashringWatch.preference_list] using hcons
    · simp [GHashringWatch.find_hashring_node, GHashringWatch.preference_list, hcons]

/-- Witness for C3: on the empty ring both implementations fail with the
no-nodes error; on a one-node ring both return that node. -/
theorem claim_C3_find_hashring_node_witness :
    HashringWatch.find_hashring_node (fun _ => 0) [] "k" = .error "no nodes available" ∧
    GHashringWatch.find_hashring_node (fun _ => 0) [] "k" = .error "no nodes available" :=
  (claim_C3_find_hashring_node (fun _ => 0) [] "k").1 rfl

/-- C10 counterexample: with current ring `[{token 5}]` and an explicitly
supplied empty hashring argument, the thread implementation returns the
empty preference list while the gevent implementation substitutes the
watcher's current ring — the two implementations disagree, contradicting
the claim. -/
theorem claim_C10_counterexample :
    HashringWatch.preference_list (fun _ => 0) [{ token := 5 }] "k" (some []) = [] ∧
    GHashringWatch.preference_list (fun _ => 0) [{ token := 5 }] "k" (some [])
      = [{ token := 5 }] ∧
    HashringWatch.preference_list (fun _ => 0) [{ token := 5 }] "k" (some [])
      ≠ GHashringWatch.preference_list (fun _ => 0) [{ token := 5 }] "k" (some []) := by
  refine ⟨by decide, by decide, by decide⟩

/-- C10 amended: the two implementations agree whenever the hashring
argument is omitted (`None`) or is a non-empty explicit list; for an
explicit empty list the thread implementation computes on the empty ring
(returning `[]`) while the gevent implementation, whose guard is the Python
falsy test `hashring or self._hashring`, substitutes the watcher's current
ring. -/
theorem claim_C10_preference_list_variants (hashFn : String → Nat)
    (selfRing r : List HashringNode) (data : String) :
    (HashringWatch.preference_list hashFn selfRing data none
      = GHashringWatch.preference_list hashFn selfRing data none) ∧
    (r ≠ [] →
      HashringWatch.preference_list hashFn selfRing data (some r)
        = GHashringWatch.preference_list hashFn selfRing data (some r)) ∧
    (HashringWatch.preference_list hashFn selfRing data (some []) = []) ∧
    (GHashringWatch.preference_list hashFn selfRing data (some [])
      = preferenceListCore hashFn selfRing data) := by
  refine ⟨rfl, ?_, ?_, rfl⟩
  · intro hne
    simp [HashringWatch.preference_list, GHashringWatch.preference_list,
      List.isEmpty_iff, hne]
  · simp [HashringWatch.preference_list, preferenceListCore_nil]

/-- Witness for C10 amended: agreement on a concrete non-empty explicit
ring. -/
theorem claim_C10_preference_list_variants_witness :
    HashringWatch.preference_list (fun _ => 0) [{ token := 5 }] "k" (some [{ token := 2 }])
      = GHashringWatch.preference_list (fun _ => 0) [{ token := 5 }] "k"
          (some [{ token := 2 }]) :=
  (claim_C10_preference_list_variants (fun _ => 0) [{ token := 5 }] [{ token := 2 }]
    "k").2.1 (by decide)

/-! ## Session manager claims -/

/-- C5: in the `run` event loop the cached session id and password take new
values only when a `Connected` event is processed (from the server-reported
session); `Connecting` clears only the connected flag; `Expired` clears the
cached credentials and nulls the handle before `_establish_session` is
invoked, so the `init` call carries no prior session credentials `(-1, "")`
and installs the fresh handle. -/
theorem claim_C5_session_events (st : ClientState) (oracle : Int × String) (h : Nat) :
    ((ZookeeperClient.processEvent st .connected oracle h).1.sessionId = oracle.1 ∧
     (ZookeeperClient.processEvent st .connected oracle h).1.sessionPassword = oracle.2 ∧
     (ZookeeperClient.processEvent st .connected oracle h).1.connected = true ∧
     (ZookeeperClient.processEvent st .connected oracle h).2 = []) ∧
    (∀ ev, ev ≠ SessionEventState.connected → ev ≠ SessionEventState.expired →
      (ZookeeperClient.processEvent st ev oracle h).1.sessionId = st.sessionId ∧
      (ZookeeperClient.processEvent st ev oracle h).1.sessionPassword = st.sessionPassword ∧
      (ZookeeperClient.processEvent st ev oracle h).1.handle = st.handle) ∧
    ((ZookeeperClient.processEvent st .connecting oracle h).1
      = { st with connected := false }) ∧
    (ZookeeperClient.processEvent st .expired oracle h
      = ({ connected := false, sessionId := -1, sessionPassword := "", handle := some h }, [(-1, "")])) := by
  refine ⟨⟨rfl, rfl, rfl, rfl⟩, ?_, rfl, rfl⟩
  intro ev h1 h2
  cases ev with
  | connected => exact absurd rfl h1
  | expired => exact absurd rfl h2
  | connecting => exact ⟨rfl, rfl, rfl⟩
  | associating => exact ⟨rfl, rfl, rfl⟩
  | authFailed => exact ⟨rfl, rfl, rfl⟩

/-- Witness for C5: processing `Connecting` after being connected keeps the
cached credentials. -/
theorem claim_C5_session_events_witness :
    (ZookeeperClient.processEvent { connected := true, sessionId := 7, sessionPassword := "pw", handle := some 3 } .connecting (9, "z") 5).1.sessionId = 7 :=
  ((claim_C5_session_events { connected := true, sessionId := 7, sessionPassword := "pw", handle := some 3 } (9, "z") 5).2.1 .connecting (by decide) (by decide)).1

/-! ## Watcher run loop claims -/

/-- C6 counterexample: the hashring run loop does not reset its error
counter on a successful update. On the schedule of ten failures, one
successful `Connected` update, then one more failure — never more than ten
*consecutive* failures — the data watch loop drains with counter 1, but the
hashring loop exits with `maxErrors` at counter 11, contradicting the claim
that every watcher run loop counts consecutive failures. -/
theorem claim_C6_counterexample :
    GHashringWatch.runStep 5 { event := .connected, clientConnected := true, outcome := .ok }
      = .next 5 ∧
    GDataWatch.runStep 5 { event := .connected, clientConnected := true, outcome := .ok }
      = .next 0 ∧
    GHashringWatch.runLoop 0 (List.replicate 10 ⟨.connected, true, .err⟩
      ++ [⟨.connected, true, .ok⟩, ⟨.connected, true, .err⟩]) = (.maxErrorsExit, 11) ∧
    GDataWatch.runLoop 0 (List.replicate 10 ⟨.connected, true, .err⟩
      ++ [⟨.connected, true, .ok⟩, ⟨.connected, true, .err⟩]) = (.drained, 1) := by
  refine ⟨by decide, by decide, by decide, by decide⟩

/-- C6 amended: in all three gevent watcher run loops a transient failure
(`ConnectionLoss`, `SessionExpired`, `Closing`) is swallowed without
touching the error counter; a counted failure increments it and the loop
exits as soon as the counter exceeds 10 (so a continuing loop's counter
never passes 10); after a successful update of a `Connected` event the data
and children loops reset the counter to zero but the hashring loop keeps
it, and no loop resets it after a successful start-triggered update. -/
theorem claim_C6_watch_loop (errors : Nat) (c : Bool) :
    (GDataWatch.runStep errors ⟨.connected, c, .transient⟩ = .next errors ∧
     GChildrenWatch.runStep errors ⟨.connected, c, .transient⟩ = .next errors ∧
     GHashringWatch.runStep errors ⟨.connected, c, .transient⟩ = .next errors) ∧
    (errors ≥ 10 →
      GDataWatch.runStep errors ⟨.connected, c, .err⟩ = .maxErrors (errors + 1) ∧
      GChildrenWatch.runStep errors ⟨.connected, c, .err⟩ = .maxErrors (errors + 1) ∧
      GHashringWatch.runStep errors ⟨.connected, c, .err⟩ = .maxErrors (errors + 1)) ∧
    (errors < 10 →
      GDataWatch.runStep errors ⟨.connected, c, .err⟩ = .next (errors + 1) ∧
      GChildrenWatch.runStep errors ⟨.connected, c, .err⟩ = .next (errors + 1) ∧
      GHashringWatch.runStep errors ⟨.connected, c, .err⟩ = .next (errors + 1)) ∧
    (GDataWatch.runStep errors ⟨.connected, c, .ok⟩ = .next 0 ∧
     GChildrenWatch.runStep errors ⟨.connected, c, .ok⟩ = .next 0 ∧
     GHashringWatch.runStep errors ⟨.connected, c, .ok⟩ = .next errors) ∧
    (GDataWatch.runStep errors ⟨.start, true, .ok⟩ = .next errors ∧
     GHashringWatch.runStep errors ⟨.start, true, .ok⟩ = .next errors) ∧
    (∀ r it e, errors ≤ 10 → watchStep r errors it = .next e → e ≤ 10) := by
  refine ⟨⟨rfl, rfl, rfl⟩, ?_, ?_, ⟨rfl, rfl, rfl⟩, ⟨rfl, rfl⟩, ?_⟩
  · intro hge
    have h10 : errors + 1 > 10 := by omega
    refine ⟨?_, ?_, ?_⟩ <;>
      simp [GDataWatch.runStep, GChildrenWatch.runStep, GHashringWatch.runStep,
        watchStep, if_pos h10]
  · intro hlt
    have h10 : ¬ errors + 1 > 10 := by omega
    refine ⟨?_, ?_, ?_⟩ <;>
      simp [GDataWatch.runStep, GChildrenWatch.runStep, GHashringWatch.runStep,
        watchStep, if_neg h10]
  · intro r it e hle hstep
    rcases it with ⟨ev, cc, oc⟩
    cases ev <;> cases oc <;> cases cc <;> cases r <;>
      simp only [watchStep] at hstep <;>
      (try split at hstep) <;>
      (try split at hstep) <;>
      (try cases hstep) <;>
      omega

/-- Witness for C6 amended: at counter 10 one more counted failure makes
the data watch loop exit. -/
theorem claim_C6_watch_loop_witness :
    GDataWatch.runStep 10 ⟨.connected, true, .err⟩ = .maxErrors 11 :=
  ((claim_C6_watch_loop 10 true).2.1 (by decide)).1

/-! ## Async result claims -/

/-- C9 counterexample: the cell is not single-assignment in the claimed
sense — a second `set` changes what `get` observes.  After `set(1)` the
observation is `value 1`; after a subsequent `set(2)` it is `value 2`. -/
theorem claim_C9_counterexample :
    ((({} : AsyncResult Nat).set (some 1)).get = .value (some 1)) ∧
    (((({} : AsyncResult Nat).set (some 1)).set (some 2)).get = .value (some 2)) ∧
    (GetOutcome.value (some 2) ≠ (GetOutcome.value (some 1) : GetOutcome Nat)) := by
  refine ⟨by decide, by decide, by decide⟩

/-- C9 amended: the cell is a completion cell whose setters overwrite
unconditionally: `set` stores the value and marks the event, `set_exception`
stores the failure and marks the event, and `get` reports a timeout while
the event is unset, raises the stored exception when one is present
(exception takes precedence over any value), and otherwise returns the most
recently stored value. -/
theorem claim_C9_async_result {α : Type} (r : AsyncResult α) (v : Option α) (e : String) :
    (r.eventSet = false → r.get = .timeout) ∧
    (r.eventSet = true → r.exception = some e → r.get = .raised e) ∧
    (r.eventSet = true → r.exception = none → r.get = .value r.result) ∧
    ((r.set v).result = v ∧ (r.set v).eventSet = true ∧
      (r.set v).exception = r.exception) ∧
    ((r.setException e).exception = some e ∧ (r.setException e).eventSet = true ∧
      (r.setException e).result = r.result) ∧
    ((r.set v).get = match r.exception with
      | some e1 => .raised e1
      | none => .value v) ∧
    ((r.setException e).get = .raised e) := by
  refine ⟨?_, ?_, ?_, ⟨rfl, rfl, rfl⟩, ⟨rfl, rfl, rfl⟩, ?_, ?_⟩
  · intro h
    simp [AsyncResult.get, AsyncResult.ready, h]
  · intro h he
    simp [AsyncResult.get, AsyncResult.ready, h, he]
  · intro h he
    simp [AsyncResult.get, AsyncResult.ready, h, he]
  · cases he : r.exception <;>
      simp [AsyncResult.get, AsyncResult.ready, AsyncResult.set, he]
  · simp [AsyncResult.get, AsyncResult.ready, AsyncResult.setException]

/-- Witness for C9 amended: a never-completed cell times out. -/
theorem claim_C9_async_result_witness :
    ({} : AsyncResult Nat).get = .timeout :=
  (claim_C9_async_result ({} : AsyncResult Nat) none "e").1 rfl

/-! ## Sorted insertion lemmas -/

theorem insertAt_eq_orderedInsertR (n : HashringNode) (a : List HashringNode) (i : Nat)
    (hi : i ≤ a.length)
    (hlt : ∀ j, j < i → (a.getD j default).token ≤ n.token)
    (hgt : ∀ j, i ≤ j → j < a.length → n.token < (a.getD j default).token) :
    insertAt i n a = orderedInsertR n a := by
  induction a generalizing i with
  | nil =>
    have h0 : i = 0 := by simpa using hi
    subst h0
    rfl
  | cons m rest ih =>
    cases i with
    | zero =>
      have h0 := hgt 0 (by omega) (by simp)
      simp only [List.getD_cons_zero] at h0
      simp only [insertAt, orderedInsertR]
      rw [if_neg (by omega)]
    | succ j =>
      have h0 := hlt 0 (by omega)
      simp only [List.getD_cons_zero] at h0
      simp only [insertAt, orderedInsertR]
      rw [if_pos h0]
      congr 1
      refine ih j (by simpa using hi) ?_ ?_
      · intro k hk
        have := hlt (k + 1) (by omega)
        simpa using this
      · intro k hk hklen
        have := hgt (k + 1) (by omega) (by simpa using hklen)
        simpa using this

theorem insertAt_eq_orderedInsertL (n : HashringNode) (a : List HashringNode) (i : Nat)
    (hi : i ≤ a.length)
    (hlt : ∀ j, j < i → (a.getD j default).token < n.token)
    (hgt : ∀ j, i ≤ j → j < a.length → n.token ≤ (a.getD j default).token) :
    insertAt i n a = orderedInsertL n a := by
  induction a generalizing i with
  | nil =>
    have h0 : i = 0 := by simpa using hi
    subst h0
    rfl
  | cons m rest ih =>
    cases i with
    | zero =>
      have h0 := hgt 0 (by omega) (by simp)
      simp only [List.getD_cons_zero] at h0
      simp only [insertAt, orderedInsertL]
      rw [if_neg (by omega)]
    | succ j =>
      have h0 := hlt 0 (by omega)
      simp only [List.getD_cons_zero] at h0
      simp only [insertAt, orderedInsertL]
      rw [if_pos h0]
      congr 1
      refine ih j (by simpa using hi) ?_ ?_
      · intro k hk
        have := hlt (k + 1) (by omega)
        simpa using this
      · intro k hk hklen
        have := hgt (k + 1) (by omega) (by simpa using hklen)
        simpa using this

/-- On a weakly sorted ring, `bisect.insort` is plain ordered insertion
after the equal tokens. -/
theorem insort_eq_orderedInsertR (a : List HashringNode) (n : HashringNode)
    (hsort : a.Pairwise (fun u v => u.token ≤ v.token)) :
    insort a n = orderedInsertR n a := by
  have hsplit := bisectRight_split a n.token hsort
  exact insertAt_eq_orderedInsertR n a _ (bisectRight_le_length a n.token)
    hsplit.1 hsplit.2

/-- On a weakly sorted ring, `bisect.insort_left` is plain ordered
insertion before the equal tokens. -/
theorem insortLeft_eq_orderedInsertL (a : List HashringNode) (n : HashringNode)
    (hsort : a.Pairwise (fun u v => u.token ≤ v.token)) :
    insortLeft a n = orderedInsertL n a := by
  have hsplit := bisectLeft_split a n.token hsort
  exact insertAt_eq_orderedInsertL n a _ (bisectLeft_le_length a n.token)
    hsplit.1 hsplit.2

theorem mem_orderedInsertR (x n : HashringNode) (a : List HashringNode) :
    x ∈ orderedInsertR n a ↔ x = n ∨ x ∈ a := by
  induction a with
  | nil => simp [orderedInsertR]
  | cons m rest ih =>
    simp only [orderedInsertR]
    by_cases h : m.token ≤ n.token
    · rw [if_pos h]
      simp only [List.mem_cons, ih]
      tauto
    · rw [if_neg h]
      simp

/-- With a fresh token the two ordered insertions coincide. -/
theorem orderedInsertL_eq_orderedInsertR (n : HashringNode) (a : List HashringNode)
    (hfresh : n.token ∉ ringTokens a) :
    orderedInsertL n a = orderedInsertR n a := by
  induction a with
  | nil => rfl
  | cons m rest ih =>
    have hne : m.token ≠ n.token := by
      intro h
      exact hfresh (by simp [ringTokens, h])
    have hfresh1 : n.token ∉ ringTokens rest := by
      intro h
      exact hfresh (by simp [ringTokens] at h ⊢; tauto)
    simp only [orderedInsertL, orderedInsertR]
    by_cases h : m.token < n.token
    · rw [if_pos h, if_pos (le_of_lt h), ih hfresh1]
    · rw [if_neg h, if_neg (by omega)]

theorem orderedInsertR_strictSorted (n : HashringNode) (a : List HashringNode)
    (hsort : StrictSorted a) (hfresh : n.token ∉ ringTokens a) :
    StrictSorted (orderedInsertR n a) := by
  induction a with
  | nil => simp [orderedInsertR, StrictSorted]
  | cons m rest ih =>
    rw [StrictSorted, List.pairwise_cons] at hsort
    have hne : m.token ≠ n.token := by
      intro h
      exact hfresh (by simp [ringTokens, h])
    have hfresh1 : n.token ∉ ringTokens rest := by
      intro h
      exact hfresh (by simp [ringTokens] at h ⊢; tauto)
    simp only [orderedInsertR]
    by_cases h : m.token ≤ n.token
    · rw [if_pos h]
      rw [StrictSorted, List.pairwise_cons]
      refine ⟨?_, ih hsort.2 hfresh1⟩
      intro x hx
      rcases (mem_orderedInsertR x n rest).mp hx with rfl | hx
      · omega
      · exact hsort.1 x hx
    · rw [if_neg h]
      rw [StrictSorted, List.pairwise_cons]
      refine ⟨?_, List.pairwise_cons.mpr hsort⟩
      intro x hx
      rcases List.mem_cons.mp hx with rfl | hx
      · omega
      · have := hsort.1 x hx
        omega

/-- Tokens after ordered insertion. -/
theorem ringTokens_orderedInsertR (n : HashringNode) (a : List HashringNode) (t : Nat) :
    t ∈ ringTokens (orderedInsertR n a) ↔ t = n.token ∨ t ∈ ringTokens a := by
  simp only [ringTokens, List.mem_map]
  constructor
  · rintro ⟨x, hx, rfl⟩
    rcases (mem_orderedInsertR x n a).mp hx with rfl | hx
    · exact Or.inl rfl
    · exact Or.inr ⟨x, hx, rfl⟩
  · rintro (rfl | ⟨x, hx, rfl⟩)
    · exact ⟨n, (mem_orderedInsertR n n a).mpr (Or.inl rfl), rfl⟩
    · exact ⟨x, (mem_orderedInsertR x n a).mpr (Or.inr hx), rfl⟩

/-- Folding a sorted-insertion function over fresh, pairwise-distinct
nodes keeps the ring strictly sorted; the token set grows by exactly the
inserted tokens. -/
theorem foldl_insert_strictSorted
    (ins : List HashringNode → HashringNode → List HashringNode)
    (hins : ∀ a n, StrictSorted a → n.token ∉ ringTokens a →
      ins a n = orderedInsertR n a) :
    ∀ (nodes : List HashringNode) (ring : List HashringNode),
      StrictSorted ring →
      (nodes.map (·.token)).Nodup →
      (∀ n ∈ nodes, n.token ∉ ringTokens ring) →
      StrictSorted (nodes.foldl ins ring) ∧
      (∀ t, t ∈ ringTokens (nodes.foldl ins ring) ↔
        t ∈ ringTokens ring ∨ t ∈ nodes.map (·.token)) := by
  intro nodes
  induction nodes with
  | nil =>
    intro ring hsort _ _
    exact ⟨hsort, by simp⟩
  | cons n ns ih =>
    intro ring hsort hnodup hfresh
    have hfn : n.token ∉ ringTokens ring := hfresh n (by simp)
    have hstep : ins ring n = orderedInsertR n ring := hins ring n hsort hfn
    have hsort1 : StrictSorted (orderedInsertR n ring) :=
      orderedInsertR_strictSorted n ring hsort hfn
    have hnodup1 : (ns.map (·.token)).Nodup := by
      simpa using hnodup.of_cons
    have hnmem : n.token ∉ ns.map (·.token) := by
      have := hnodup
      simp only [List.map_cons, List.nodup_cons] at this
      exact this.1
    have hfresh1 : ∀ m ∈ ns, m.token ∉ ringTokens (orderedInsertR n ring) := by
      intro m hm hmem
      rcases (ringTokens_orderedInsertR n ring m.token).mp hmem with h | h
      · exact hnmem (h ▸ List.mem_map_of_mem (·.token) hm)
      · exact hfresh m (by simp [hm]) h
    have hrec := ih (orderedInsertR n ring) hsort1 hnodup1 hfresh1
    simp only [List.foldl_cons, hstep]
    refine ⟨hrec.1, ?_⟩
    intro t
    rw [hrec.2 t, ringTokens_orderedInsertR]
    simp
    tauto

/-- Folded token removals produce a sublist of the ring. -/
theorem foldl_remove_sublist (cds : List (String × ChildData)) :
    ∀ ring : List HashringNode,
      (cds.foldl (fun r cd => removeByToken r (parseHex cd.1)) ring).Sublist ring := by
  induction cds with
  | nil => intro ring; exact List.Sublist.refl ring
  | cons cd rest ih =>
    intro ring
    have h1 := ih (removeByToken ring (parseHex cd.1))
    have h2 : (removeByToken ring (parseHex cd.1)).Sublist ring := by
      simp only [removeByToken]
      exact List.eraseP_sublist ring
    exact h1.trans h2

/-- An association-list member makes `lookup` succeed. -/
theorem lookup_isSome_of_mem {β : Type} (m : List (String × β)) (k : String) (v : β)
    (h : (k, v) ∈ m) : (m.lookup k).isSome := by
  induction m with
  | nil => simp at h
  | cons kv rest ih =>
    rcases kv with ⟨k1, v1⟩
    by_cases hk : k = k1
    · subst hk
      simp [List.lookup]
    · have hmem : (k, v) ∈ rest := by
        rcases List.mem_cons.mp h with heq | hmem
        · exact absurd (congrArg Prod.fst heq) hk
        · exact hmem
      have hbeq : (k == k1) = false := beq_eq_false_iff_ne.mpr hk
      simpa [List.lookup, hbeq] using ih hmem

/-- Strict sortedness makes the token list duplicate-free. -/
theorem StrictSorted.tokensNodup {ring : List HashringNode}
    (h : StrictSorted ring) : (ringTokens ring).Nodup := by
  have hpl : (ringTokens ring).Pairwise (· < ·) := by
    rw [ringTokens, List.pairwise_map]
    exact h
  exact hpl.imp (fun hlt => Nat.ne_of_lt hlt)

/-- The children-diff preserves strict sortedness of the ring, for any
insertion function that behaves as ordered insertion on sorted rings with
fresh tokens, provided the incoming child names are duplicate-free, hex
parsing is injective on the names involved, and every ring token is the
token of a cached child. -/
theorem ringDiffUpdate_strictSorted
    (ins : List HashringNode → HashringNode → List HashringNode)
    (hins : ∀ a n, StrictSorted a → n.token ∉ ringTokens a →
      ins a n = orderedInsertR n a)
    (st : RingState) (names : List String) (fetch : String → ChildData)
    (hsort : StrictSorted st.hashring)
    (hnodup : names.Nodup)
    (hinj : ∀ c1 ∈ names ++ st.children.map Prod.fst,
      ∀ c2 ∈ names ++ st.children.map Prod.fst, parseHex c1 = parseHex c2 → c1 = c2)
    (hcover : ∀ n ∈ st.hashring, ∃ cd ∈ st.children, n.token = parseHex cd.1) :
    StrictSorted (ringDiffUpdate ins st names fetch).hashring := by
  have hring : (ringDiffUpdate ins st names fetch).hashring
      = ((st.children ++ (names.filter (fun c => (st.children.lookup c).isNone)).map (fun c => (c, fetch c))).filter (fun cd => !(names.contains cd.1))).foldl
        (fun r cd => removeByToken r (parseHex cd.1))
        ((((names.filter (fun c => (st.children.lookup c).isNone)).map (fun c => (c, fetch c))).map nodeOfChild).foldl ins st.hashring) := by
    have h1 : (ringDiffUpdate ins st names fetch).hashring
        = ((st.children ++ (names.filter (fun c => (st.children.lookup c).isNone)).map (fun c => (c, fetch c))).filter (fun cd => !(names.contains cd.1))).foldl
          (fun r cd => removeByToken r (parseHex cd.1))
          (((names.filter (fun c => (st.children.lookup c).isNone)).map (fun c => (c, fetch c))).foldl (fun r cd => ins r (nodeOfChild cd)) st.hashring) := rfl
    rw [h1]
    simp only [List.foldl_map]
  rw [hring]
  have hmemnames : ∀ c ∈ names.filter (fun c => (st.children.lookup c).isNone),
      c ∈ names ++ st.children.map Prod.fst := by
    intro c hc
    exact List.mem_append_left _ (List.mem_of_mem_filter hc)
  have hnodes : ((((names.filter (fun c => (st.children.lookup c).isNone)).map (fun c => (c, fetch c))).map nodeOfChild).map (·.token)).Nodup := by
    have hmm : ((((names.filter (fun c => (st.children.lookup c).isNone)).map (fun c => (c, fetch c))).map nodeOfChild).map (·.token))
        = (names.filter (fun c => (st.children.lookup c).isNone)).map (fun c => parseHex c) := by
      simp only [List.map_map]
      rfl
    rw [hmm]
    refine List.Nodup.map_on ?_ (hnodup.filter _)
    intro x hx y hy hxy
    exact hinj x (hmemnames x hx) y (hmemnames y hy) hxy
  have hfresh : ∀ n ∈ (((names.filter (fun c => (st.children.lookup c).isNone)).map (fun c => (c, fetch c))).map nodeOfChild),
      n.token ∉ ringTokens st.hashring := by
    intro n hn hmem
    obtain ⟨cd0, hcd0, rfl⟩ := List.mem_map.mp hn
    obtain ⟨c, hc, rfl⟩ := List.mem_map.mp hcd0
    obtain ⟨x, hx, hxt⟩ := List.mem_map.mp hmem
    obtain ⟨cd, hcd, hcdt⟩ := hcover x hx
    have hceq : cd.1 = c := by
      refine hinj cd.1 ?_ c (hmemnames c hc) ?_
      · exact List.mem_append_right _ (List.mem_map_of_mem Prod.fst hcd)
      · rw [← hcdt, hxt]
        rfl
    have hsome : (st.children.lookup c).isSome := by
      have hmemc : (c, cd.2) ∈ st.children := by
        rw [← hceq]
        exact hcd
      exact lookup_isSome_of_mem st.children c cd.2 hmemc
    have hnone : (st.children.lookup c).isNone := by
      have := List.of_mem_filter hc
      simpa using this
    rw [Option.isNone_iff_eq_none.mp hnone] at hsome
    simp at hsome
  have h1 := foldl_insert_strictSorted ins hins
    (((names.filter (fun c => (st.children.lookup c).isNone)).map (fun c => (c, fetch c))).map nodeOfChild)
    st.hashring hsort hnodes hfresh
  exact List.Pairwise.sublist (foldl_remove_sublist _ _) h1.1

/-! ## Ring sortedness claims -/

/-- C2 counterexample: starting from the empty (strictly sorted,
duplicate-free) ring, inserting the two distinct child names `"1"` and
`"01"` — which parse to the same token 1 — leaves the ring with duplicate
tokens and not strictly sorted, so the claim fails for arbitrary inserts. -/
theorem claim_C2_counterexample :
    StrictSorted ([] : List HashringNode) ∧
    ¬ StrictSorted (HashringWatch.ringUpdate { children := [], hashring := [] }
      ["1", "01"] (fun _ => ("d", 0))).hashring ∧
    ringTokens (HashringWatch.ringUpdate { children := [], hashring := [] }
      ["1", "01"] (fun _ => ("d", 0))).hashring = [1, 1] := by
  refine ⟨by decide, by decide, by decide⟩

/-- C2 amended: one application of the children diff — inserting the new
children and removing the stale ones — starting from a strictly sorted
duplicate-free ring whose tokens are the tokens of the cached children,
keeps the ring strictly sorted with no duplicate tokens, provided the
server-returned child names are duplicate-free and hex parsing is
injective on the names involved (as it is for the canonical zero-padded
32-character hex names the watch itself creates).  This holds for both the
thread implementation (`insort_left`) and the gevent implementation
(`insort`). -/
theorem claim_C2_ring_sorted (st : RingState) (names : List String)
    (fetch : String → ChildData)
    (hsort : StrictSorted st.hashring)
    (hnodup : names.Nodup)
    (hinj : ∀ c1 ∈ names ++ st.children.map Prod.fst,
      ∀ c2 ∈ names ++ st.children.map Prod.fst, parseHex c1 = parseHex c2 → c1 = c2)
    (hcover : ∀ n ∈ st.hashring, ∃ cd ∈ st.children, n.token = parseHex cd.1) :
    StrictSorted (HashringWatch.ringUpdate st names fetch).hashring ∧
    (ringTokens (HashringWatch.ringUpdate st names fetch).hashring).Nodup ∧
    StrictSorted (GHashringWatch.ringUpdate st names fetch).hashring ∧
    (ringTokens (GHashringWatch.ringUpdate st names fetch).hashring).Nodup := by
  have hL : StrictSorted (ringDiffUpdate insortLeft st names fetch).hashring := by
    refine ringDiffUpdate_strictSorted insortLeft ?_ st names fetch hsort hnodup hinj hcover
    intro a n ha hf
    exact (insortLeft_eq_orderedInsertL a n ha.weak).trans
      (orderedInsertL_eq_orderedInsertR n a hf)
  have hR : StrictSorted (ringDiffUpdate insort st names fetch).hashring := by
    refine ringDiffUpdate_strictSorted insort ?_ st names fetch hsort hnodup hinj hcover
    intro a n ha _
    exact insort_eq_orderedInsertR a n ha.weak
  exact ⟨hL, hL.tokensNodup, hR, hR.tokensNodup⟩

/-- Witness for C2 amended: a concrete diff adding child
`"00000000000000000000000000000003"` and removing child
`"00000000000000000000000000000001"` keeps the ring strictly sorted. -/
theorem claim_C2_ring_sorted_witness :
    StrictSorted (HashringWatch.ringUpdate { children := [("00000000000000000000000000000001", ("a", 0))], hashring := [{ token := 1, data := some "a", stat := some 0 }] } ["00000000000000000000000000000003"] (fun _ => ("b", 1))).hashring :=
  (claim_C2_ring_sorted { children := [("00000000000000000000000000000001", ("a", 0))], hashring := [{ token := 1, data := some "a", stat := some 0 }] } ["00000000000000000000000000000003"] (fun _ => ("b", 1))
    (by decide) (by decide) (by decide) (by decide)).1

/-! ## get_children completion handling claims -/

/-- C7 counterexample: on a `NoNode` completion with a non-empty cache the
hashring callback returns the state unchanged and issues no zookeeper
calls, while the children watch callback installs an exists watch and
clears its cache — the two handlers do not behave identically, and the
hashring callback does silently drop the error. -/
theorem claim_C7_counterexample :
    (HashringWatch.callbackModel "/ring"
        { children := [("01", ("d", 0))], hashring := [{ token := 1 }] }
        .noNode [] (fun _ => ("d", 0))
      = ({ children := [("01", ("d", 0))], hashring := [{ token := 1 }] }, [])) ∧
    (ChildrenWatch.callbackModel "/ring" [("01", ("d", 0))] .noNode [] (fun _ => ("d", 0)) none
      = ([], [.existsWatch "/ring"])) ∧
    ((HashringWatch.callbackModel "/ring"
        { children := [("01", ("d", 0))], hashring := [{ token := 1 }] }
        .noNode [] (fun _ => ("d", 0))).2
      ≠ (ChildrenWatch.callbackModel "/ring" [("01", ("d", 0))] .noNode []
          (fun _ => ("d", 0)) none).2) := by
  refine ⟨by decide, by decide, by decide⟩

/-- C7 amended: `HashringWatch._callback` returns immediately on every
non-`OK` return code — it neither installs an exists watch nor clears its
cache nor re-issues the read — whereas `ChildrenWatch._callback` reacts to
`NoNode` by installing an exists watch, re-issuing `async_get_children`
when the double check finds the node reappeared, and clearing its cache
otherwise. -/
theorem claim_C7_hashring_callback (path : String) (st : RingState)
    (rc : ReturnCode) (names : List String) (fetch : String → ChildData)
    (children : List (String × ChildData)) (stat : Nat) :
    (rc ≠ .ok → HashringWatch.callbackModel path st rc names fetch = (st, [])) ∧
    (HashringWatch.callbackModel path st .ok names fetch
      = (HashringWatch.ringUpdate st names fetch, [])) ∧
    (ChildrenWatch.callbackModel path children .noNode names fetch (some stat)
      = (children, [.existsWatch path, .asyncGetChildren path])) ∧
    (ChildrenWatch.callbackModel path children .noNode names fetch none
      = ([], [.existsWatch path])) := by
  refine ⟨?_, rfl, rfl, rfl⟩
  intro hne
  cases rc with
  | ok => exact absurd rfl hne
  | noNode => rfl
  | closing => rfl
  | nodeExists => rfl
  | connectionLoss => rfl
  | other => rfl

/-- Witness for C7 amended: a concrete `NoNode` completion leaves the
hashring state untouched. -/
theorem claim_C7_hashring_callback_witness :
    HashringWatch.callbackModel "/ring"
        { children := [], hashring := [] } .noNode ["01"] (fun _ => ("d", 0))
      = ({ children := [], hashring := [] }, []) :=
  (claim_C7_hashring_callback "/ring" { children := [], hashring := [] } .noNode
    ["01"] (fun _ => ("d", 0)) [] 0).1 (by decide)

/-! ## Position occupancy lemmas -/

theorem hexChar_mem (n : Nat) : hexChar n ∈ hexDigits := by
  by_cases h : n < hexDigits.length
  · rw [hexChar, List.getD_eq_getElem hexDigits '0' h]
    exact List.getElem_mem h
  · rw [hexChar, List.getD_eq_default hexDigits '0' (by omega)]
    decide

theorem toHexGo_chars (fuel n : Nat) (acc : List Char)
    (hacc : ∀ c ∈ acc, c ∈ hexDigits) :
    ∀ c ∈ toHexGo fuel n acc, c ∈ hexDigits := by
  induction fuel generalizing n acc with
  | zero => exact hacc
  | succ f ih =>
    simp only [toHexGo]
    by_cases h : n < 16
    · rw [if_pos h]
      intro c hc
      rcases List.mem_cons.mp hc with rfl | hc
      · exact hexChar_mem n
      · exact hacc c hc
    · rw [if_neg h]
      refine ih (n / 16) _ ?_
      intro c hc
      rcases List.mem_cons.mp hc with rfl | hc
      · exact hexChar_mem (n % 16)
      · exact hacc c hc

theorem toHexGo_length (fuel : Nat) :
    ∀ k n acc, n < 16 ^ k → 1 ≤ k →
      (toHexGo fuel n acc).length ≤ k + acc.length := by
  induction fuel with
  | zero =>
    intro k n acc _ _
    simp only [toHexGo]
    omega
  | succ f ih =>
    intro k n acc hn hk
    simp only [toHexGo]
    by_cases h : n < 16
    · rw [if_pos h]
      simp only [List.length_cons]
      omega
    · rw [if_neg h]
      have hk2 : 2 ≤ k := by
        by_contra hcon
        have : k = 1 := by omega
        subst this
        simp at hn
        omega
      have hdiv : n / 16 < 16 ^ (k - 1) := by
        rw [Nat.div_lt_iff_lt_mul (by omega)]
        have : 16 ^ (k - 1) * 16 = 16 ^ k := by
          rw [← Nat.pow_succ]
          congr 1
          omega
        omega
      have := ih (k - 1) (n / 16) (hexChar (n % 16) :: acc) hdiv (by omega)
      simp only [List.length_cons] at this
      omega

theorem toHexRaw_length_le (n k : Nat) (h : n < 16 ^ k) (hk : 1 ≤ k) :
    (toHexRaw n).length ≤ k := by
  have h1 := toHexGo_length (n + 1) k n [] h hk
  have h2 : (toHexRaw n).length = (toHexGo (n + 1) n []).length := rfl
  simp only [List.length_nil] at h1
  omega

theorem hex32_length (p : Nat) (h : p < 2 ^ 128) : (hex32 p).length = 32 := by
  have h16 : p < 16 ^ 32 := by
    have : (16 : Nat) ^ 32 = 2 ^ 128 := by norm_num
    omega
  have hraw : (toHexRaw p).length ≤ 32 := toHexRaw_length_le p 32 h16 (by omega)
  simp only [hex32]
  by_cases hlt : (toHexRaw p).length < 32
  · rw [if_pos hlt]
    have hrep : (⟨List.replicate (32 - (toHexRaw p).length) '0'⟩ : String).length
        = 32 - (toHexRaw p).length := by
      show (List.replicate (32 - (toHexRaw p).length) '0').length = _
      simp
    rw [String.length_append, hrep]
    omega
  · rw [if_neg hlt]
    omega

theorem hex32_chars (p : Nat) : ∀ c ∈ (hex32 p).data, isLowerHexDigit c := by
  have hraw : ∀ c ∈ (toHexRaw p).data, c ∈ hexDigits := by
    intro c hc
    exact toHexGo_chars (p + 1) p [] (by simp) c hc
  simp only [hex32]
  by_cases hlt : (toHexRaw p).length < 32
  · rw [if_pos hlt]
    intro c hc
    rw [String.data_append] at hc
    rcases List.mem_append.mp hc with hc | hc
    · have hc0 : c = '0' := by
        simpa using List.eq_of_mem_replicate hc
      subst hc0
      decide
    · simp only [isLowerHexDigit]
      exact List.elem_iff.mpr (hraw c hc)
  · rw [if_neg hlt]
    intro c hc
    simp only [isLowerHexDigit]
    exact List.elem_iff.mpr (hraw c hc)

theorem addPositionsGo_length (pd : Option String) :
    ∀ (n : Nat) (store : RingChildren) (q r : List Nat) (owned : List Nat)
      (store1 : RingChildren),
      addPositionsGo pd n store q r = some (owned, store1) → owned.length = n := by
  intro n
  induction n with
  | zero =>
    intro store q r owned store1 h
    simp only [addPositionsGo] at h
    cases h
    rfl
  | succ m ih =>
    intro store q r owned store1 h
    simp only [addPositionsGo] at h
    split at h
    · cases h
    · split at h
      · cases h
      · cases h
        simp only [List.length_cons]
        have hlen := ih _ _ _ _ _ (by assumption)
        omega

/-! ## Position occupancy claims -/

/-- C8 counterexample: with requested positions `[1, 2]`, position 1
already occupied by foreign data and the next random draw being 3, the
source occupies slot 1 with the *next requested position* 2 (owned list
`[2, 3]`), whereas the claimed algorithm — retry a data-mismatch collision
with a fresh random token — would yield owned list `[3, 2]`. -/
theorem claim_C8_counterexample :
    HashringWatch.addPositions none 2 [1, 2] [3] [(hex32 1, .str "other")]
      = some ([2, 3], [(hex32 3, .tok 3), (hex32 2, .tok 2), (hex32 1, .str "other")]) ∧
    specAddPositionsGo none [some 1, some 2] [(hex32 1, .str "other")] [3]
      = some ([3, 2], [(hex32 2, .tok 2), (hex32 3, .tok 3), (hex32 1, .str "other")]) ∧
    ([2, 3] : List Nat) ≠ [3, 2] := by
  refine ⟨by decide, by decide, by decide⟩

/-- C8 amended: for each desired slot the loop attempts to create
`ring_path/<32-char lower-case hex token>` as an ephemeral node carrying
the configured position data (defaulting to the token itself); creation
succeeds on a fresh name, a `NodeExists` whose stored data equals the data
being written is accepted as already ours, and a data mismatch retries with
the next *remaining requested position* if any and with a fresh random
128-bit token only after the request queue is exhausted; every accepted
token is appended to the owned-position list, whose final length is the
number of requested slots. -/
theorem claim_C8_occupy_positions (pd : Option String) (store : RingChildren)
    (p : Nat) (queue randoms : List Nat) (d : PosData) :
    (p < 2 ^ 128 → (hex32 p).length = 32 ∧ ∀ c ∈ (hex32 p).data, isLowerHexDigit c) ∧
    (store.lookup (hex32 p) = none →
      occupySlot pd store (p :: queue) randoms
        = some (p, (hex32 p, occupyData pd p) :: store, queue, randoms)) ∧
    (store.lookup (hex32 p) = some (occupyData pd p) →
      occupySlot pd store (p :: queue) randoms = some (p, store, queue, randoms)) ∧
    (store.lookup (hex32 p) = some d → d ≠ occupyData pd p →
      occupySlot pd store (p :: queue) randoms = occupySlot pd store queue randoms) ∧
    (store.lookup (hex32 p) = none →
      occupySlotRandoms pd store (p :: randoms)
        = some (p, (hex32 p, occupyData pd p) :: store, randoms)) ∧
    (store.lookup (hex32 p) = some d → d ≠ occupyData pd p →
      occupySlotRandoms pd store (p :: randoms) = occupySlotRandoms pd store randoms) ∧
    (∀ n q r owned store1, addPositionsGo pd n store q r = some (owned, store1) →
      owned.length = n) := by
  refine ⟨?_, ?_, ?_, ?_, ?_, ?_, ?_⟩
  · intro hp
    exact ⟨hex32_length p hp, hex32_chars p⟩
  · intro hlook
    simp [occupySlot, attemptPosition, hlook]
  · intro hlook
    simp [occupySlot, attemptPosition, hlook]
  · intro hlook hne
    simp [occupySlot, attemptPosition, hlook, if_neg hne]
  · intro hlook
    simp [occupySlotRandoms, attemptPosition, hlook]
  · intro hlook hne
    simp [occupySlotRandoms, attemptPosition, hlook, if_neg hne]
  · intro n q r owned store1 h
    exact addPositionsGo_length pd n store q r owned store1 h

/-- Witness for C8 amended: a fresh position 7 is created and accepted. -/
theorem claim_C8_occupy_positions_witness :
    occupySlot none [] [7] [] = some (7, [(hex32 7, PosData.tok 7)], [], []) :=
  ((claim_C8_occupy_positions none [] 7 [] [] (.str "x")).2.1 (by decide))

/-! ## create_path lemmas -/

theorem extendPath_cons (cur s : String) (rest : List String) :
    extendPath cur (s :: rest) = extendPath (cur ++ "/" ++ s) rest := rfl

theorem length_step (cur s : String) :
    (cur ++ "/" ++ s).length = cur.length + 1 + s.length := by
  rw [String.length_append, String.length_append]
  rfl

theorem extendPath_length (segs : List String) :
    ∀ cur : String, cur.length ≤ (extendPath cur segs).length := by
  induction segs with
  | nil => intro cur; simp [extendPath]
  | cons s rest ih =>
    intro cur
    rw [extendPath_cons]
    have h := ih (cur ++ "/" ++ s)
    have h2 := length_step cur s
    omega

theorem extendPath_length_lt (cur : String) (segs : List String) (h : segs ≠ []) :
    cur.length < (extendPath cur segs).length := by
  cases segs with
  | nil => cases h rfl
  | cons s rest =>
    rw [extendPath_cons]
    have h1 := extendPath_length rest (cur ++ "/" ++ s)
    have h2 := length_step cur s
    omega

theorem walkPaths_length (segs : List String) :
    ∀ cur : String, ∀ q ∈ walkPaths cur segs, cur.length < q.length := by
  induction segs with
  | nil => intro cur q hq; simp [walkPaths] at hq
  | cons s rest ih =>
    intro cur q hq
    simp only [walkPaths, List.mem_cons] at hq
    have h2 := length_step cur s
    rcases hq with rfl | hq
    · omega
    · have := ih (cur ++ "/" ++ s) q hq
      omega

theorem dropWhile_append_all {α : Type} (p : α → Bool) (l1 l2 : List α)
    (h : ∀ x ∈ l1, p x = true) : (l1 ++ l2).dropWhile p = l2.dropWhile p := by
  induction l1 with
  | nil => rfl
  | cons a l ih =>
    simp only [List.cons_append, List.dropWhile_cons]
    rw [if_pos (h a (by simp))]
    exact ih (fun x hx => h x (by simp [hx]))

/-- The parent of `cur ++ "/" ++ s` is `cur` whenever the segment `s`
contains no slash. -/
theorem parentPath_extend (cur s : String) (hs : ∀ c ∈ s.data, c ≠ '/') :
    parentPath (cur ++ "/" ++ s) = cur := by
  have hdata : (cur ++ "/" ++ s).data = cur.data ++ '/' :: s.data := by
    simp [String.data_append]
  simp only [parentPath, hdata]
  rw [List.reverse_append, List.reverse_cons, List.append_assoc]
  rw [dropWhile_append_all _ s.data.reverse _ ?hall]
  case hall =>
    intro x hx
    simpa using hs x (List.mem_reverse.mp hx)
  simp only [List.singleton_append, List.dropWhile_cons]
  rw [if_neg (by simp)]
  simp only [List.drop_succ_cons, List.drop_zero, List.reverse_reverse]

theorem pathExists_cons (st : ZStore) (k : String) (v : ZNode) (p : String)
    (h : pathExists st p = true) : pathExists ((k, v) :: st) p = true := by
  simp only [pathExists, Bool.or_eq_true] at h ⊢
  rcases h with h | h
  · exact Or.inl h
  · refine Or.inr ?_
    by_cases hk : p = k
    · subst hk
      simp [List.lookup]
    · have hbeq : (p == k) = false := beq_eq_false_iff_ne.mpr hk
      simpa [List.lookup, hbeq] using h

theorem lookup_cons_self (st : ZStore) (k : String) (v : ZNode) :
    ((k, v) :: st).lookup k = some v := by
  simp [List.lookup]

theorem lookup_cons_ne (st : ZStore) (k q : String) (v : ZNode) (h : q ≠ k) :
    ((k, v) :: st).lookup q = st.lookup q := by
  have hbeq : (q == k) = false := beq_eq_false_iff_ne.mpr h
  simp [List.lookup, hbeq]

/-- The ancestor node `create_path` writes: empty data, the supplied ACL,
no flags. -/
theorem zcreate_ok (st : ZStore) (path data : String) (acl : List AclEntry)
    (seq eph : Bool) (habs : st.lookup path = none)
    (hpar : pathExists st (parentPath path) = true) :
    zcreate st path data acl seq eph
      = .ok (path, (path, { data := data, acl := acl, sequence := seq, ephemeral := eph }) :: st) := by
  simp only [zcreate, habs, hpar]
  rfl

theorem zcreate_exists (st : ZStore) (path data : String) (acl : List AclEntry)
    (seq eph : Bool) (h : (st.lookup path).isSome) :
    zcreate st path data acl seq eph = .error .nodeExists := by
  simp only [zcreate]
  rw [if_pos h]

/-- The main induction for `create_path` when the leaf is absent: every
missing prefix is created with empty data and the supplied ACL, existing
prefixes are untouched, the leaf is created with the caller's data and
flags, the leaf path is returned, and no other store entry changes. -/
theorem createPathGo_spec (data : Option String) (acl : Option (List AclEntry))
    (seq eph : Bool) :
    ∀ (rest : List String) (cur : String) (st : ZStore) (result : Option String)
      (path : String),
      rest ≠ [] →
      path = extendPath cur rest →
      (∀ s ∈ rest, ∀ c ∈ s.data, c ≠ '/') →
      pathExists st cur = true →
      st.lookup path = none →
      ∃ st1, createPathGo path data acl seq eph rest cur st result = .ok (some path, st1) ∧
        st1.lookup path = some { data := data.getD "", acl := acl.getD openAcl, sequence := seq, ephemeral := eph } ∧
        (∀ q ∈ walkPaths cur rest, q ≠ path →
          st1.lookup q = if (st.lookup q).isSome then st.lookup q else some { data := "", acl := acl.getD openAcl, sequence := false, ephemeral := false }) ∧
        (∀ q, q ∉ walkPaths cur rest → st1.lookup q = st.lookup q) := by
  intro rest
  induction rest with
  | nil => intro cur st result path hne; cases hne rfl
  | cons s rest ih =>
    intro cur st result path _ hpath hslash hcur hleaf
    cases rest with
    | nil =>
      have hcp : cur ++ "/" ++ s = path := by
        rw [hpath]
        rfl
      have hparent : parentPath path = cur := by
        rw [← hcp]
        exact parentPath_extend cur s (hslash s (by simp))
      have hok : ZookeeperClient.create st (cur ++ "/" ++ s) data acl seq eph
          = .ok (path, (path, { data := data.getD "", acl := acl.getD openAcl, sequence := seq, ephemeral := eph }) :: st) := by
        rw [hcp]
        simp only [ZookeeperClient.create]
        refine zcreate_ok st path (data.getD "") (acl.getD openAcl) seq eph hleaf ?_
        rw [hparent]
        exact hcur
      refine ⟨(path, { data := data.getD "", acl := acl.getD openAcl, sequence := seq, ephemeral := eph }) :: st, ?_, ?_, ?_, ?_⟩
      · simp only [createPathGo]
        rw [if_pos hcp, hok]
      · exact lookup_cons_self st path _
      · intro q hq hqne
        simp only [walkPaths, List.mem_cons, List.not_mem_nil, or_false] at hq
        rw [hcp] at hq
        exact absurd hq hqne
      · intro q hq
        simp only [walkPaths, List.mem_cons, List.not_mem_nil, or_false] at hq
        rw [hcp] at hq
        exact lookup_cons_ne st path q _ hq
    | cons s2 rest2 =>
      have hpath2 : path = extendPath (cur ++ "/" ++ s) (s2 :: rest2) := hpath
      have hne2 : (s2 :: rest2) ≠ ([] : List String) := by simp
      have hlen : (cur ++ "/" ++ s).length < path.length := by
        rw [hpath2]
        exact extendPath_length_lt _ _ hne2
      have hcne : ¬ (cur ++ "/" ++ s = path) := by
        intro heq
        rw [heq] at hlen
        omega
      have hparent : parentPath (cur ++ "/" ++ s) = cur :=
        parentPath_extend cur s (hslash s (by simp))
      have hwalk : ∀ q ∈ walkPaths (cur ++ "/" ++ s) (s2 :: rest2),
          (cur ++ "/" ++ s).length < q.length :=
        walkPaths_length (s2 :: rest2) (cur ++ "/" ++ s)
      have hcw : (cur ++ "/" ++ s) ∉ walkPaths (cur ++ "/" ++ s) (s2 :: rest2) := by
        intro hmem
        have := hwalk _ hmem
        omega
      have hslash2 : ∀ t ∈ s2 :: rest2, ∀ c ∈ t.data, c ≠ '/' := by
        intro t ht
        exact hslash t (by simp [ht])
      simp only [createPathGo]
      rw [if_neg hcne]
      cases hanc : st.lookup (cur ++ "/" ++ s) with
      | some v =>
        have hcreate : ZookeeperClient.create st (cur ++ "/" ++ s) none acl false false
            = .error .nodeExists := by
          simp only [ZookeeperClient.create]
          exact zcreate_exists st _ _ _ _ _ (by simp [hanc])
        rw [hcreate]
        have hex : pathExists st (cur ++ "/" ++ s) = true := by
          simp [pathExists, hanc]
        obtain ⟨st1, hgo, hl1, hl2, hl3⟩ := ih (cur ++ "/" ++ s) st result path hne2
          hpath2 hslash2 hex hleaf
        refine ⟨st1, hgo, hl1, ?_, ?_⟩
        · intro q hq hqne
          rw [walkPaths] at hq
          rcases List.mem_cons.mp hq with rfl | hq
          · rw [hl3 _ hcw]
            simp [hanc]
          · exact hl2 q hq hqne
        · intro q hq
          rw [walkPaths] at hq
          refine hl3 q ?_
          intro h
          exact hq (List.mem_cons_of_mem _ h)
      | none =>
        have hcreate : ZookeeperClient.create st (cur ++ "/" ++ s) none acl false false
            = .ok (cur ++ "/" ++ s, (cur ++ "/" ++ s, { data := "", acl := acl.getD openAcl, sequence := false, ephemeral := false }) :: st) := by
          simp only [ZookeeperClient.create]
          refine zcreate_ok st _ _ _ _ _ hanc ?_
          rw [hparent]
          exact hcur
        rw [hcreate]
        have hex : pathExists ((cur ++ "/" ++ s, { data := "", acl := acl.getD openAcl, sequence := false, ephemeral := false }) :: st) (cur ++ "/" ++ s) = true := by
          simp [pathExists, lookup_cons_self]
        have hleaf2 : ((cur ++ "/" ++ s, { data := "", acl := acl.getD openAcl, sequence := false, ephemeral := false }) :: st).lookup path = none := by
          rw [lookup_cons_ne st _ path _ (fun h => hcne h.symm)]
          exact hleaf
        obtain ⟨st1, hgo, hl1, hl2, hl3⟩ := ih (cur ++ "/" ++ s)
          ((cur ++ "/" ++ s, { data := "", acl := acl.getD openAcl, sequence := false, ephemeral := false }) :: st)
          result path hne2 hpath2 hslash2 hex hleaf2
        refine ⟨st1, hgo, hl1, ?_, ?_⟩
        · intro q hq hqne
          rw [walkPaths] at hq
          rcases List.mem_cons.mp hq with rfl | hq
          · rw [hl3 _ hcw, lookup_cons_self]
            simp [hanc]
          · rw [hl2 q hq hqne]
            have hqlen := hwalk q hq
            have hqc : q ≠ cur ++ "/" ++ s := by
              intro h
              rw [h] at hqlen
              omega
            rw [lookup_cons_ne st _ q _ hqc]
        · intro q hq
          rw [walkPaths] at hq
          have hq1 : q ≠ cur ++ "/" ++ s := by
            intro h
            exact hq (h ▸ List.mem_cons_self _ _)
          have hq2 : q ∉ walkPaths (cur ++ "/" ++ s) (s2 :: rest2) := by
            intro h
            exact hq (List.mem_cons_of_mem _ h)
          rw [hl3 q hq2, lookup_cons_ne st _ q _ hq1]

/-- When the leaf already exists, the walk swallows ancestor `NodeExists`
but the leaf's `NodeExists` is re-raised to the caller. -/
theorem createPathGo_exists (data : Option String) (acl : Option (List AclEntry))
    (seq eph : Bool) :
    ∀ (rest : List String) (cur : String) (st : ZStore) (result : Option String)
      (path : String),
      rest ≠ [] →
      path = extendPath cur rest →
      (∀ s ∈ rest, ∀ c ∈ s.data, c ≠ '/') →
      pathExists st cur = true →
      (st.lookup path).isSome →
      createPathGo path data acl seq eph rest cur st result = .error .nodeExists := by
  intro rest
  induction rest with
  | nil => intro cur st result path hne; cases hne rfl
  | cons s rest ih =>
    intro cur st result path _ hpath hslash hcur hleaf
    cases rest with
    | nil =>
      have hcp : cur ++ "/" ++ s = path := by
        rw [hpath]
        rfl
      simp only [createPathGo]
      rw [if_pos hcp]
      have hcreate : ZookeeperClient.create st (cur ++ "/" ++ s) data acl seq eph
          = .error .nodeExists := by
        rw [hcp]
        simp only [ZookeeperClient.create]
        exact zcreate_exists st path _ _ _ _ hleaf
      rw [hcreate]
    | cons s2 rest2 =>
      have hpath2 : path = extendPath (cur ++ "/" ++ s) (s2 :: rest2) := hpath
      have hne2 : (s2 :: rest2) ≠ ([] : List String) := by simp
      have hlen : (cur ++ "/" ++ s).length < path.length := by
        rw [hpath2]
        exact extendPath_length_lt _ _ hne2
      have hcne : ¬ (cur ++ "/" ++ s = path) := by
        intro heq
        rw [heq] at hlen
        omega
      have hparent : parentPath (cur ++ "/" ++ s) = cur :=
        parentPath_extend cur s (hslash s (by simp))
      have hslash2 : ∀ t ∈ s2 :: rest2, ∀ c ∈ t.data, c ≠ '/' := by
        intro t ht
        exact hslash t (by simp [ht])
      simp only [createPathGo]
      rw [if_neg hcne]
      cases hanc : st.lookup (cur ++ "/" ++ s) with
      | some v =>
        have hcreate : ZookeeperClient.create st (cur ++ "/" ++ s) none acl false false
            = .error .nodeExists := by
          simp only [ZookeeperClient.create]
          exact zcreate_exists st _ _ _ _ _ (by simp [hanc])
        rw [hcreate]
        exact ih (cur ++ "/" ++ s) st result path hne2 hpath2 hslash2
          (by simp [pathExists, hanc]) hleaf
      | none =>
        have hcreate : ZookeeperClient.create st (cur ++ "/" ++ s) none acl false false
            = .ok (cur ++ "/" ++ s, (cur ++ "/" ++ s, { data := "", acl := acl.getD openAcl, sequence := false, ephemeral := false }) :: st) := by
          simp only [ZookeeperClient.create]
          refine zcreate_ok st _ _ _ _ _ hanc ?_
          rw [hparent]
          exact hcur
        rw [hcreate]
        refine ih (cur ++ "/" ++ s)
          ((cur ++ "/" ++ s, { data := "", acl := acl.getD openAcl, sequence := false, ephemeral := false }) :: st)
          result path hne2 hpath2 hslash2 ?_ ?_
        · simp [pathExists, lookup_cons_self]
        · rw [lookup_cons_ne st _ path _ (fun h => hcne h.symm)]
          exact hleaf

/-! ## create_path claims -/

/-- C4: for a slash-separated absolute path, `create_path` walks the
prefixes from the root, creating each missing ancestor with empty data and
the supplied ACL, continuing past `NodeExists` on ancestors (they stay
untouched), creating only the leaf with the caller's data and
sequence/ephemeral flags, surfacing a leaf `NodeExists` to the caller, and
returning the created leaf path on success; nothing else in the store
changes. -/
theorem claim_C4_create_path (st : ZStore) (path : String) (segs : List String)
    (data : Option String) (acl : Option (List AclEntry)) (seq eph : Bool)
    (hsplit : (splitSlash path).drop 1 = segs)
    (hpath : path = extendPath "" segs)
    (hsegs : segs ≠ [])
    (hslash : ∀ s ∈ segs, ∀ c ∈ s.data, c ≠ '/') :
    ((st.lookup path).isSome →
      ZookeeperClient.create_path st path data acl seq eph = .error .nodeExists) ∧
    (st.lookup path = none →
      ∃ st1, ZookeeperClient.create_path st path data acl seq eph = .ok (some path, st1) ∧
        st1.lookup path = some { data := data.getD "", acl := acl.getD openAcl, sequence := seq, ephemeral := eph } ∧
        (∀ q ∈ walkPaths "" segs, q ≠ path →
          st1.lookup q = if (st.lookup q).isSome then st.lookup q else some { data := "", acl := acl.getD openAcl, sequence := false, ephemeral := false }) ∧
        (∀ q, q ∉ walkPaths "" segs → st1.lookup q = st.lookup q)) := by
  have hroot : pathExists st "" = true := by
    simp [pathExists]
  constructor
  · intro hsome
    simp only [ZookeeperClient.create_path, hsplit]
    exact createPathGo_exists data acl seq eph segs "" st none path hsegs hpath hslash
      hroot hsome
  · intro hnone
    simp only [ZookeeperClient.create_path, hsplit]
    exact createPathGo_spec data acl seq eph segs "" st none path hsegs hpath hslash
      hroot hnone

/-- Witness for C4: creating `/a/b` when it already exists surfaces
`NodeExists`. -/
theorem claim_C4_create_path_witness :
    ZookeeperClient.create_path [("/a/b", { data := "y", acl := openAcl, sequence := false, ephemeral := false })] "/a/b" (some "x") none false false = .error .nodeExists :=
  (claim_C4_create_path [("/a/b", { data := "y", acl := openAcl, sequence := false, ephemeral := false })] "/a/b" ["a", "b"] (some "x") none false false
    (by decide) (by decide) (by decide) (by decide)).1 (by decide)

end Trpycore
